import Mathlib

set_option maxRecDepth 40000

/-!
# zkAuth — verification of the threshold-sharing authentication core

Shallow embedding of the zkAuth library (TypeScript) in Lean 4, together with
proofs and refutations of the specification's claims about it.

Conventions used throughout:

* JavaScript `bigint` values are embedded as `Int` (they are exact integers);
  the library's `mod` helper, which returns a representative in `[0, p)`, is
  embedded as euclidean `Int.emod` (for a positive modulus the two agree,
  including on negative inputs).
* Byte buffers (`Uint8Array`, `Buffer`) are embedded as `List Nat`, each entry
  a byte value `< 256`.
* ASCII strings are converted to bytes by taking the code point of each
  character, which agrees with UTF-8 and `charCodeAt` on the ASCII range used
  by the library's constants and identifiers.
* Fallible code (`throw`) is embedded as `Option`, `none` marking the thrown
  error; the error kind of the spec's taxonomy is recorded in a comment at
  each `none`.
* Randomness (random bytes, random field elements, random IVs) is passed in
  as an explicit argument, so every function is a pure function of its inputs.
* Library boundaries that the repository does not implement (Node's
  AES-256-GCM cipher, `JSON.stringify`/`parse`, `btoa`/`atob`, tweetnacl's
  Ed25519) are modelled from the spec as structures bundling the operations
  with their contracts; the claims quantify over all models satisfying the
  contract, and concrete lawful instances are provided for witnesses.
-/

/-! ## Basic encodings: hex, bytes, ASCII, decimal -/

/-- The BN254 scalar-field modulus used by `shares.ts` (`PRIME`). -/
def PRIME : Nat := 21888242871839275222246405745257275088548364400416034343698204186575808495617

/-- `mod` from `shares.ts`: reduce a JS bigint into `[0, p)`.
JS `%` truncates and the helper adds `p` back when the result is negative,
which is exactly euclidean `emod` for the positive modulus `PRIME`. -/
def jsmod (a : Int) : Int := a % (PRIME : Int)

/-- Hex digit for a nibble, lowercase, as produced by JS `toString(16)`. -/
def hexDigit (n : Nat) : Char :=
  if n < 10 then Char.ofNat (48 + n) else Char.ofNat (87 + n)

/-- Numeric value of one hex digit (upper- or lowercase), as accepted by
`BigInt('0x…')` and `Buffer.from(·, 'hex')`; `none` on a non-hex character. -/
def hexDigitVal (c : Char) : Option Nat :=
  if 48 ≤ c.toNat ∧ c.toNat ≤ 57 then some (c.toNat - 48)
  else if 97 ≤ c.toNat ∧ c.toNat ≤ 102 then some (c.toNat - 87)
  else if 65 ≤ c.toNat ∧ c.toNat ≤ 70 then some (c.toNat - 55)
  else none

/-- Parse a hex string into a natural number (`BigInt('0x' + s)`);
fails (the `SyntaxError` thrown by `BigInt`) on any non-hex character. -/
def hexToNat? (s : String) : Option Nat :=
  s.data.foldlM (fun acc c => (hexDigitVal c).map (fun d => 16 * acc + d)) 0

/-- Big-endian hex digit list of fixed width, used to state `natToHex64`. -/
def hexDigitsBE (k n : Nat) : List Char :=
  (List.range k).map (fun i => hexDigit ((n >>> (4 * (k - 1 - i))) &&& 15))

/-- `n.toString(16).padStart(64, '0')` for `n < 2^256`: the 64-nibble
lowercase big-endian hex encoding.  `combineShares` applies this to the
interpolated secret, which is always `< PRIME < 2^256`, where the fixed-width
form agrees with pad-to-at-least-64. -/
def natToHex64 (n : Nat) : String := ⟨hexDigitsBE 64 n⟩

/-- `Buffer.from(s, 'hex')`: Node parses hex pairs left to right and silently
truncates at the first invalid pair (or lone trailing digit). -/
def hexToBytesLax : List Char → List Nat
  | c1 :: c2 :: rest =>
    match hexDigitVal c1, hexDigitVal c2 with
    | some a, some b => (16 * a + b) :: hexToBytesLax rest
    | _, _ => []
  | _ => []

/-- `Buffer.from(s, 'hex')` on a string. -/
def strToBytes (s : String) : List Nat := hexToBytesLax s.data

/-- `buf.toString('hex')`: two lowercase hex digits per byte. -/
def bytesToHexStr (bs : List Nat) : String :=
  ⟨bs.foldr (fun b acc => hexDigit ((b >>> 4) &&& 15) :: hexDigit (b &&& 15) :: acc) []⟩

/-- UTF-8 bytes of an ASCII string (`Buffer.from(s)` / `TextEncoder`);
all strings hashed by the library's derivations are ASCII. -/
def asciiBytes (s : String) : List Nat := s.data.map Char.toNat

/-- Little-endian decimal digits of `n`, with enough fuel (`n` itself). -/
def natToDecRev : Nat → Nat → List Char
  | 0, _ => []
  | fuel + 1, n => if n = 0 then [] else hexDigit (n % 10) :: natToDecRev fuel (n / 10)

/-- Minimal decimal encoding of a natural number, as by JS `toString()`. -/
def natToDec (n : Nat) : String :=
  if n = 0 then "0" else ⟨(natToDecRev n n).reverse⟩

/-- `BigInt.prototype.toString()` for a signed value. -/
def intToDec (x : Int) : String :=
  if x < 0 then "-" ++ natToDec x.natAbs else natToDec x.natAbs

/-- Parse an unsigned decimal string; `none` on a non-digit. -/
def decToNat? (s : List Char) : Option Nat :=
  s.foldlM (fun acc c => if c.isDigit then some (10 * acc + (c.toNat - 48)) else none) 0

/-- Parse a signed decimal character list (`BigInt(s)` on canonical decimals). -/
def decIntAux : List Char → Option Int
  | [] => (decToNat? []).map (fun (n : Nat) => (n : Int))
  | c :: rest =>
    if c = '-' then (decToNat? rest).map (fun (n : Nat) => -(n : Int))
    else (decToNat? (c :: rest)).map (fun (n : Nat) => (n : Int))

/-- Parse a signed decimal string (`BigInt(s)` on canonical decimals). -/
def decToInt? (s : String) : Option Int := decIntAux s.data

/-! ## JS string helpers (`toLowerCase`, `trim`, `\s`)

`toLowerCase` is modelled on the ASCII range (the identifiers and purpose
strings the library lowercases are ASCII).  `isJsWs` is the JS `\s` class. -/

def jsToLowerChar (c : Char) : Char :=
  if 65 ≤ c.toNat ∧ c.toNat ≤ 90 then Char.ofNat (c.toNat + 32) else c

def jsToLower (s : String) : String := ⟨s.data.map jsToLowerChar⟩

/-- The JS whitespace class `\s` (also the set trimmed by `trim()`). -/
def isJsWs (c : Char) : Bool :=
  c.toNat ∈ [9, 10, 11, 12, 13, 32, 160, 5760, 8192, 8193, 8194, 8195, 8196,
    8197, 8198, 8199, 8200, 8201, 8202, 8232, 8233, 8239, 8287, 12288, 65279]

def jsTrim (s : String) : String :=
  ⟨((s.data.dropWhile isJsWs).reverse.dropWhile isJsWs).reverse⟩

/-! ## SHA-256 and HMAC-SHA-256 (Node `crypto.createHash`/`createHmac`)

A direct FIPS 180-4 implementation over byte lists, validated below against
the FIPS and RFC 4231 test vectors.  Words are `Nat` reduced mod `2^32`. -/

def mask32 : Nat := 4294967295

def rotr32 (n x : Nat) : Nat := ((x >>> n) ||| (x <<< (32 - n))) &&& mask32

def sha256K : List Nat := [
  1116352408, 1899447441, 3049323471, 3921009573, 961987163, 1508970993,
  2453635748, 2870763221, 3624381080, 310598401, 607225278, 1426881987,
  1925078388, 2162078206, 2614888103, 3248222580, 3835390401, 4022224774,
  264347078, 604807628, 770255983, 1249150122, 1555081692, 1996064986,
  2554220882, 2821834349, 2952996808, 3210313671, 3336571891, 3584528711,
  113926993, 338241895, 666307205, 773529912, 1294757372, 1396182291,
  1695183700, 1986661051, 2177026350, 2456956037, 2730485921, 2820302411,
  3259730800, 3345764771, 3516065817, 3600352804, 4094571909, 275423344,
  430227734, 506948616, 659060556, 883997877, 958139571, 1322822218,
  1537002063, 1747873779, 1955562222, 2024104815, 2227730452, 2361852424,
  2428436474, 2756734187, 3204031479, 3329325298]

def sha256H0 : List Nat :=
  [1779033703, 3144134277, 1013904242, 2773480762,
   1359893119, 2600822924, 528734635, 1541459225]

def smallSigma0 (x : Nat) : Nat := rotr32 7 x ^^^ rotr32 18 x ^^^ (x >>> 3)

def smallSigma1 (x : Nat) : Nat := rotr32 17 x ^^^ rotr32 19 x ^^^ (x >>> 10)

def bigSigma0 (x : Nat) : Nat := rotr32 2 x ^^^ rotr32 13 x ^^^ rotr32 22 x

def bigSigma1 (x : Nat) : Nat := rotr32 6 x ^^^ rotr32 11 x ^^^ rotr32 25 x

/-- Message-schedule extension; the word list is kept most-recent-first. -/
def buildSchedule : Nat → List Nat → List Nat
  | 0, ws => ws
  | n + 1, ws =>
    buildSchedule n (((smallSigma1 (ws.getD 1 0) + ws.getD 6 0 +
      smallSigma0 (ws.getD 14 0) + ws.getD 15 0) % 4294967296) :: ws)

def bytesToWords32 : List Nat → List Nat
  | a :: b :: c :: d :: rest => ((a <<< 24) ||| (b <<< 16) ||| (c <<< 8) ||| d) :: bytesToWords32 rest
  | _ => []

def compressStep (st : List Nat) (kw : Nat × Nat) : List Nat :=
  let a := st.getD 0 0
  let b := st.getD 1 0
  let c := st.getD 2 0
  let d := st.getD 3 0
  let e := st.getD 4 0
  let f := st.getD 5 0
  let g := st.getD 6 0
  let h := st.getD 7 0
  let ch := (e &&& f) ^^^ ((e ^^^ mask32) &&& g)
  let temp1 := (h + bigSigma1 e + ch + kw.1 + kw.2) % 4294967296
  let maj := (a &&& b) ^^^ (a &&& c) ^^^ (b &&& c)
  let temp2 := (bigSigma0 a + maj) % 4294967296
  [(temp1 + temp2) % 4294967296, a, b, c, (d + temp1) % 4294967296, e, f, g]

def processBlock (h : List Nat) (block : List Nat) : List Nat :=
  let w := (buildSchedule 48 (bytesToWords32 block).reverse).reverse
  let st := (sha256K.zip w).foldl compressStep h
  (h.zip st).map (fun p => (p.1 + p.2) % 4294967296)

def sha256Blocks : Nat → List Nat → List Nat → List Nat
  | _, h, [] => h
  | 0, h, _ => h
  | fuel + 1, h, xs => sha256Blocks fuel (processBlock h (xs.take 64)) (xs.drop 64)

def bigEndian8 (n : Nat) : List Nat := (List.range 8).map (fun i => (n >>> (8 * (7 - i))) &&& 255)

def padMessage (msg : List Nat) : List Nat :=
  msg ++ [128] ++ List.replicate ((119 - msg.length % 64) % 64) 0 ++ bigEndian8 (8 * msg.length)

def wordsToBytes (ws : List Nat) : List Nat :=
  ws.foldr (fun w acc =>
    ((w >>> 24) &&& 255) :: ((w >>> 16) &&& 255) :: ((w >>> 8) &&& 255) :: (w &&& 255) :: acc) []

def sha256 (msg : List Nat) : List Nat :=
  let padded := padMessage msg
  wordsToBytes (sha256Blocks (padded.length / 64) sha256H0 padded)

def hmacSha256 (key msg : List Nat) : List Nat :=
  let k1 := if 64 < key.length then sha256 key else key
  let k0 := k1 ++ List.replicate (64 - k1.length) 0
  sha256 ((k0.map (· ^^^ 92)) ++ sha256 ((k0.map (· ^^^ 54)) ++ msg))

/-! ## `lookup.ts` — decentralized lookup-key derivation -/

def LOOKUP_NAMESPACE : String := "zkauth-lookup-v3-decentralized"

/-- `email.toLowerCase().trim()`, as done at every derivation site. -/
def normalizeEmail (email : String) : String := jsTrim (jsToLower email)

/-- `deriveKey` from `lookup.ts`: hex HMAC-SHA-256 keyed by `googleUserId`
over `"<namespace>:<normalized email>:<purpose>"`. -/
def deriveKey (googleUserId email purpose : String) : String :=
  bytesToHexStr (hmacSha256 (asciiBytes googleUserId)
    (asciiBytes (LOOKUP_NAMESPACE ++ ":" ++ normalizeEmail email ++ ":" ++ purpose)))

/-- `derive2FALookupKey` from `lookup.ts` (the email is normalized by the
caller and again inside `deriveKey`; normalization is idempotent). -/
def derive2FALookupKey (email googleUserId : String) : String :=
  "zkauth_2fa:" ++ deriveKey googleUserId (normalizeEmail email) "2fa:lookup"

/-! ## `zk2fa/storage.ts` — the client-side 2FA lookup key -/

/-- JS `ToInt32`: wrap an exact integer to the signed 32-bit range. -/
def toInt32 (n : Int) : Int :=
  let m := Int.emod n 4294967296
  if m < 2147483648 then m else m - 4294967296

/-- `n.toString(16)` (minimal-length lowercase hex), valid for `n < 2^64`;
`simpleHash` only applies it to absolute values of 32-bit integers. -/
def natToHexMin (n : Nat) : List Char :=
  match (hexDigitsBE 16 n).dropWhile (· = '0') with
  | [] => ['0']
  | l => l

/-- `simpleHash` from `zk2fa/storage.ts`: the classic JS 32-bit string hash
`hash = (hash << 5) - hash + charCode` followed by `hash = hash & hash`
(a `ToInt32` wrap), then `Math.abs(hash).toString(16).padStart(16, '0')
.slice(0, 64).padEnd(64, '0')`. -/
def simpleHash (input : String) : String :=
  let h : Int := input.data.foldl
    (fun hash c => toInt32 (toInt32 (hash * 32) - hash + (c.toNat : Int))) 0
  let hashHex := List.replicate (16 - (natToHexMin h.natAbs).length) '0' ++ natToHexMin h.natAbs
  ⟨hashHex.take 64 ++ List.replicate (64 - (hashHex.take 64).length) '0'⟩

/-- `derive2FALookupKeyClient` from `zk2fa/storage.ts`, used by
`get2FAStateFromChain` to locate the on-chain 2FA record. -/
def derive2FALookupKeyClient (email googleUserId : String) : String :=
  "zkauth_2fa:" ++ simpleHash (googleUserId ++
    ("zkauth-lookup-v3-decentralized:" ++ normalizeEmail email ++ ":2fa:lookup"))

/-! ## `shares.ts` — threshold sharing over the BN254 scalar field -/

/-- The extended-Euclid loop of `modInverse` (`shares.ts`).  The JS loop
`while (r !== 0)` always terminates because `r` strictly decreases; it is
embedded with explicit fuel, `PRIME + 1` being more than enough since the
second argument starts at `PRIME` and strictly decreases each round.  JS
bigint division truncates, which on the loop's non-negative `old_r, r`
agrees with euclidean division. -/
def egcdLoop : Nat → Int → Int → Int → Int → Option Int
  | 0, _, _, _, _ => none
  | fuel + 1, r0, r, s0, s =>
    if r = 0 then (if r0 = 1 then some s0 else none)
    else egcdLoop fuel r (r0 % r) s (s0 - r0 / r * s)

/-- `modInverse(a, PRIME)` from `shares.ts`: extended Euclid starting from
`[old_r, r] = [a, p]`, `[old_s, s] = [1, 0]`; throws (`none`, the spec's
`InvalidInput`) when the final gcd is not 1, else returns `mod(old_s, p)`. -/
def modInverse (a : Int) : Option Int :=
  (egcdLoop (PRIME + 1) a (PRIME : Int) 1 0).map jsmod

/-- `evaluatePolynomial` from `shares.ts`: Σ coeffᵢ·xⁱ with every partial
product and sum reduced by `mod`. -/
def evaluatePolynomial (coefficients : List Int) (x : Int) : Int :=
  (coefficients.foldl
    (fun (acc : Int × Int) coeff => (jsmod (acc.1 + jsmod (coeff * acc.2)), jsmod (acc.2 * x)))
    (0, 1)).1

/-- A share `(x, y)`.  `ShareData` carries the two field elements as decimal
strings in transport; they are embedded as the parsed `BigInt` values (the
code parses with `BigInt(s.x)` and compares duplicates on the *parsed*
values' canonical decimal form, so the string layer is value-faithful). -/
structure ShareData where
  x : Int
  y : Int
deriving DecidableEq, Repr

/-- Numerator loop of `lagrangeInterpolate` for index `i`:
`Π_{j ≠ i} mod(-xⱼ)`, folded with `mod` after each multiplication. -/
def lagNum (shares : List (Int × Int)) (i : Nat) : Int :=
  (List.range shares.length).foldl
    (fun nu j => if i = j then nu else jsmod (nu * jsmod (-(shares.getD j (0, 0)).1))) 1

/-- Denominator loop of `lagrangeInterpolate` for index `i`:
`Π_{j ≠ i} mod(xᵢ - xⱼ)`, folded with `mod` after each multiplication. -/
def lagDen (shares : List (Int × Int)) (i : Nat) : Int :=
  (List.range shares.length).foldl
    (fun de j => if i = j then de
      else jsmod (de * jsmod ((shares.getD i (0, 0)).1 - (shares.getD j (0, 0)).1))) 1

/-- `lagrangeInterpolate` from `shares.ts`: `secret := Σᵢ mod(yᵢ · mod(numᵢ ·
modInverse(denᵢ)))` accumulated with `mod`; `none` when some `modInverse`
throws. -/
def lagrangeInterpolate (shares : List (Int × Int)) : Option Int :=
  (List.range shares.length).foldlM
    (fun secret i =>
      (modInverse (lagDen shares i)).map (fun inv =>
        jsmod (secret + jsmod ((shares.getD i (0, 0)).2 * jsmod (lagNum shares i * inv)))))
    0

structure SplitResult where
  shares : List ShareData
  threshold : Nat
  totalShares : Nat
deriving DecidableEq, Repr

/-- `splitMasterKey` from `shares.ts`.  The `threshold - 1` random field
elements drawn by `randomFieldElement()` are passed in as `coeffs`.  The
secret is `BigInt('0x' + masterKey.key)` — note: *not* reduced mod `p`
before building the coefficient list (reduction happens only inside
`evaluatePolynomial`). -/
def splitMasterKey (key : String) (threshold totalShares : Nat) (coeffs : List Int) :
    Option SplitResult :=
  if threshold < 2 then none                 -- 'Threshold must be at least 2' (InvalidInput)
  else if totalShares < threshold then none  -- 'Total shares must be >= threshold' (InvalidInput)
  else if 255 < totalShares then none        -- 'Maximum 255 shares supported' (InvalidInput)
  else match hexToNat? key with
    | none => none                           -- BigInt('0x'+key) throws on malformed hex
    | some secret =>
      let coefficients : List Int := (secret : Int) :: coeffs
      some { shares := (List.range totalShares).map (fun k =>
               { x := ((k + 1 : Nat) : Int),
                 y := evaluatePolynomial coefficients ((k + 1 : Nat) : Int) }),
             threshold := threshold, totalShares := totalShares }

/-- `combineShares` from `shares.ts`: requires at least 2 shares, rejects
duplicate `x` values (compared via the parsed bigints' decimal strings,
i.e. by value), interpolates, and hex-encodes zero-padded to 64 chars. -/
def combineShares (shares : List ShareData) : Option String :=
  if shares.length < 2 then none             -- 'Need at least 2 shares to combine' (InvalidInput)
  else if (shares.map ShareData.x).Nodup then
    (lagrangeInterpolate (shares.map (fun s => (s.x, s.y)))).map
      (fun secret => natToHex64 secret.toNat)
  else none                                  -- 'Duplicate share indices detected' (InvalidInput)

/-! ## `masterkey.ts` — master-key lifecycle and AEAD helpers

The AES-256-GCM cipher itself is library code (Node `crypto`), not part of
this repository.  Modelled from the spec: an authenticated symmetric cipher
taking a key and a 12-byte IV, producing a hex ciphertext and a tag, such
that decryption under the same key and IV inverts encryption (and throws on
authentication failure, modelled by `none`).  The claims quantify over every
cipher satisfying this contract. -/

/-- Modelled from the spec (§4.2 AEAD): the Node `crypto` AES-256-GCM
boundary.  `enc key iv data = (hex ciphertext, tag bytes)` corresponds to
`createCipheriv` + `update(data,'utf8','hex')`/`final('hex')` +
`getAuthTag()`; `dec` to `createDecipheriv` + `setAuthTag` + `update`/
`final`, with `none` for the thrown `AuthenticationFailure`. -/
structure GcmScheme where
  enc : List Nat → List Nat → String → String × List Nat
  dec : List Nat → List Nat → String → List Nat → Option String
  dec_enc : ∀ key iv data, dec key iv (enc key iv data).1 (enc key iv data).2 = some data
  tag_bytes : ∀ key iv data, ∀ b ∈ (enc key iv data).2, b < 256

/-- A master key: 32 bytes, in raw and hex form (`createdAt` timestamp
omitted — no claim concerns it). -/
structure MasterKey where
  key : String
  keyBytes : List Nat
deriving DecidableEq, Repr

/-- The canonical AEAD envelope `{ciphertext, iv, tag}`, all hex. -/
structure EncryptionResult where
  ciphertext : String
  iv : String
  tag : String
deriving DecidableEq, Repr

/-- `generateMasterKey` with the 32 random bytes passed in. -/
def generateMasterKey (randomBytes32 : List Nat) : MasterKey :=
  { key := bytesToHexStr randomBytes32, keyBytes := randomBytes32 }

/-- `masterKeyFromHex`: throws `InvalidInput` unless the parsed buffer has
exactly 32 bytes. -/
def masterKeyFromHex (hex : String) : Option MasterKey :=
  let keyBytes := strToBytes hex
  if keyBytes.length = 32 then some { key := hex, keyBytes := keyBytes }
  else none  -- 'Invalid master key: must be 32 bytes (256-bit)' (InvalidInput)

/-- `hashMasterKey`: SHA-256 of the raw bytes, hex. -/
def hashMasterKey (masterKey : MasterKey) : String := bytesToHexStr (sha256 masterKey.keyBytes)

/-- `deriveEncryptionKey(pk) = sha256(Buffer.from(pk, 'hex'))`. -/
def deriveEncryptionKey (pk : String) : List Nat := sha256 (strToBytes pk)

/-- `encryptWithPK`, with the random 12-byte IV passed in. -/
def encryptWithPK (G : GcmScheme) (iv : List Nat) (data pk : String) : EncryptionResult :=
  let ct := G.enc (deriveEncryptionKey pk) iv data
  { ciphertext := ct.1, iv := bytesToHexStr iv, tag := bytesToHexStr ct.2 }

/-- `decryptWithPK`; `none` is the propagated `AuthenticationFailure`. -/
def decryptWithPK (G : GcmScheme) (encrypted : EncryptionResult) (pk : String) : Option String :=
  G.dec (deriveEncryptionKey pk) (strToBytes encrypted.iv) encrypted.ciphertext
    (strToBytes encrypted.tag)

/-- `encryptData`: AEAD keyed directly by the master key's raw bytes. -/
def encryptData (G : GcmScheme) (iv : List Nat) (data : String) (masterKey : MasterKey) :
    EncryptionResult :=
  let ct := G.enc masterKey.keyBytes iv data
  { ciphertext := ct.1, iv := bytesToHexStr iv, tag := bytesToHexStr ct.2 }

/-- `decryptData`. -/
def decryptData (G : GcmScheme) (encrypted : EncryptionResult) (masterKey : MasterKey) :
    Option String :=
  G.dec masterKey.keyBytes (strToBytes encrypted.iv) encrypted.ciphertext
    (strToBytes encrypted.tag)

/-- `generateUserId(pk) = 'zkauth:' + sha256(Buffer.from(pk,'hex')).hex[0..16]`. -/
def generateUserId (pk : String) : String :=
  "zkauth:" ++ (bytesToHexStr (sha256 (strToBytes pk))).take 16

/-! ## `shares.ts` — per-share encryption envelope -/

inductive ChainType where
  | zcash
  | starknet
  | solana
deriving DecidableEq, Repr

/-- An encrypted share envelope (`storageAddress`, always `undefined` in the
source, is omitted). -/
structure EncryptedShare where
  shareIndex : Nat
  encryptedData : String
  iv : String
  tag : String
  chain : ChainType
  txHash : Option String
deriving DecidableEq, Repr

/-- Modelled from the spec: the `JSON.stringify`/`JSON.parse` boundary for
`ShareData` (its `{x, y}` decimal-string JSON form), as an injective
encoding with a partial inverse. -/
structure ShareCodec where
  enc : ShareData → String
  dec : String → Option ShareData
  dec_enc : ∀ s, dec (enc s) = some s

/-- `encryptShare` from `shares.ts`: AEAD of the share's JSON under the
pk-derived key; the caller-provided `shareIndex` is recorded next to the
ciphertext (nothing ties it to the share's own `x`). -/
def encryptShare (G : GcmScheme) (SJ : ShareCodec) (iv : List Nat) (share : ShareData)
    (shareIndex : Nat) (chain : ChainType) (pk : String) : EncryptedShare :=
  let encrypted := encryptWithPK G iv (SJ.enc share) pk
  { shareIndex := shareIndex, encryptedData := encrypted.ciphertext,
    iv := encrypted.iv, tag := encrypted.tag, chain := chain, txHash := none }

/-- `decryptShare` from `shares.ts`: decrypt and `JSON.parse` — the embedded
`x` is *not* compared with `shareIndex`. -/
def decryptShare (G : GcmScheme) (SJ : ShareCodec) (encryptedShare : EncryptedShare)
    (pk : String) : Option ShareData :=
  (decryptWithPK G
    { ciphertext := encryptedShare.encryptedData, iv := encryptedShare.iv,
      tag := encryptedShare.tag } pk).bind SJ.dec

/-! ## `zkAuthClient.ts` — configuration, registration, login

The three chain backends (`chains/zcash.ts`, `chains/starknet.ts`,
`chains/solana.ts`) are in-memory maps keyed `"<tag>:<userId>:share"`; a
backend's store is embedded as a lookup function, present exactly when the
chain is configured.  `store` returns a mock transaction hash (random
characters), passed in as `txh`. -/

def chainTag : ChainType → String
  | ChainType.zcash => "zcash"
  | ChainType.starknet => "starknet"
  | ChainType.solana => "solana"

/-- `getStorageKey(userId)` of the three backends. -/
def storageKey (chain : ChainType) (userId : String) : String :=
  chainTag chain ++ ":" ++ userId ++ ":share"

/-- The three optional in-memory backends (`zcashStorage?` etc.). -/
structure Stores where
  zcash : Option (String → Option EncryptedShare)
  starknet : Option (String → Option EncryptedShare)
  solana : Option (String → Option EncryptedShare)

/-- Configuration: which chains are configured (`config.chains.<tag>`
present), and the optional `threshold` / `totalShares` numbers. -/
structure ZkAuthConfig where
  zcash : Bool
  starknet : Bool
  solana : Bool
  threshold : Option Nat
  totalShares : Option Nat

/-- JS `config.threshold || 2`: `undefined` *and* `0` are falsy. -/
def jsOrDefault (v : Option Nat) (dflt : Nat) : Nat :=
  match v with
  | none => dflt
  | some n => if n = 0 then dflt else n

/-- `getEnabledChains()`: configured chains in the fixed order
zcash, starknet, solana. -/
def getEnabledChains (st : Stores) : List ChainType :=
  (if st.zcash.isSome then [ChainType.zcash] else []) ++
  (if st.starknet.isSome then [ChainType.starknet] else []) ++
  (if st.solana.isSome then [ChainType.solana] else [])

def getStorageForChain (st : Stores) : ChainType → Option (String → Option EncryptedShare)
  | ChainType.zcash => st.zcash
  | ChainType.starknet => st.starknet
  | ChainType.solana => st.solana

/-- `store(userId, share)` of a backend: add the envelope under the
composite key. -/
def storeShare (st : Stores) (chain : ChainType) (userId : String) (share : EncryptedShare) :
    Stores :=
  let upd : Option (String → Option EncryptedShare) → Option (String → Option EncryptedShare) :=
    fun m? => m?.map (fun m k => if k = storageKey chain userId then some share else m k)
  match chain with
  | ChainType.zcash => { st with zcash := upd st.zcash }
  | ChainType.starknet => { st with starknet := upd st.starknet }
  | ChainType.solana => { st with solana := upd st.solana }

/-- The state held by a constructed `ZkAuth` instance. -/
structure ZkAuthState where
  stores : Stores
  threshold : Nat
  totalShares : Nat

/-- The `ZkAuth` constructor: instantiate a fresh empty backend per
configured chain, then fail (`ConfigError`) exactly when fewer chains are
enabled than the effective threshold.  (`threshold < 2` and
`totalShares > 255` are *not* checked here; they surface only later, inside
`splitMasterKey` during `register`.) -/
def mkZkAuth (config : ZkAuthConfig) : Option ZkAuthState :=
  let threshold := jsOrDefault config.threshold 2
  let totalShares := jsOrDefault config.totalShares 3
  let stores : Stores :=
    { zcash := if config.zcash then some (fun _ => none) else none,
      starknet := if config.starknet then some (fun _ => none) else none,
      solana := if config.solana then some (fun _ => none) else none }
  if (getEnabledChains stores).length < threshold then none  -- ConfigError
  else some { stores := stores, threshold := threshold, totalShares := totalShares }

/-- `isRegistered(userId)`: at least `threshold` enabled backends have a
share under the user's key. -/
def isRegistered (st : Stores) (threshold : Nat) (userId : String) : Bool :=
  threshold ≤ ((getEnabledChains st).countP (fun chain =>
    (((getStorageForChain st chain).map (fun m => (m (storageKey chain userId)).isSome)).getD
      false)))

structure RegisterResult where
  success : Bool
  userId : String
  shares : List EncryptedShare
  masterKeyHash : String
deriving DecidableEq, Repr

/-- The envelope built and stored for loop index `i` of `register`:
share `i` (share index `i + 1`), the `i`-th enabled chain, with the mock
transaction hash attached. -/
def registerEnvelope (G : GcmScheme) (SJ : ShareCodec) (pk : String) (ivs : Nat → List Nat)
    (txh : Nat → String) (splitShares : List ShareData) (enabled : List ChainType) (i : Nat) :
    EncryptedShare :=
  { encryptShare G SJ (ivs i) (splitShares.getD i { x := 0, y := 0 }) (i + 1)
      (enabled.getD i ChainType.zcash) pk with
    txHash := some (txh i) }

/-- One iteration of the `register` loop: build the envelope, store it on
its chain, collect it. -/
def registerStep (G : GcmScheme) (SJ : ShareCodec) (pk userId : String) (ivs : Nat → List Nat)
    (txh : Nat → String) (splitShares : List ShareData) (enabled : List ChainType)
    (acc : List EncryptedShare × Stores) (i : Nat) : List EncryptedShare × Stores :=
  let stored := registerEnvelope G SJ pk ivs txh splitShares enabled i
  (acc.1 ++ [stored], storeShare acc.2 (enabled.getD i ChainType.zcash) userId stored)

/-- `ZkAuth.register(pk)`.  Randomness passed in: the 32 master-key bytes,
the `threshold - 1` random field coefficients, one IV per share, and the
backends' mock transaction hashes.  The loop runs
`i < shares.length && i < enabledChains.length`, pairing share `i` (of index
`i+1`) with the `i`-th enabled chain; each envelope is stored and, with its
`txHash` attached, collected into the result. -/
def register (G : GcmScheme) (SJ : ShareCodec) (A : ZkAuthState) (pk : String)
    (mkBytes : List Nat) (coeffs : List Int) (ivs : Nat → List Nat) (txh : Nat → String) :
    Option (RegisterResult × Stores) :=
  let userId := generateUserId pk
  if isRegistered A.stores A.threshold userId then none  -- AlreadyRegistered
  else
    let masterKey := generateMasterKey mkBytes
    match splitMasterKey masterKey.key A.threshold A.totalShares coeffs with
    | none => none  -- InvalidInput from splitMasterKey propagates
    | some splitResult =>
      let enabledChains := getEnabledChains A.stores
      let n := min splitResult.shares.length enabledChains.length
      let out := (List.range n).foldl
        (registerStep G SJ pk userId ivs txh splitResult.shares enabledChains) ([], A.stores)
      some ({ success := true, userId := userId, shares := out.1,
              masterKeyHash := hashMasterKey masterKey }, out.2)

structure LoginResult where
  success : Bool
  userId : String
  masterKey : MasterKey
  sharesUsed : Nat
deriving DecidableEq, Repr

/-- One iteration of the `login` loop over the enabled chains: skip
everything once the threshold is reached (the loop's early `break`),
otherwise fetch and decrypt, counting and collecting successes and
swallowing per-backend failures. -/
def loginStep (G : GcmScheme) (SJ : ShareCodec) (st : Stores) (threshold : Nat)
    (userId pk : String) (acc : List ShareData × Nat) (chain : ChainType) :
    List ShareData × Nat :=
  if threshold ≤ acc.1.length then acc  -- the loop's early `break`
  else match getStorageForChain st chain with
    | none => acc
    | some m =>
      match m (storageKey chain userId) with
      | none => acc  -- fetch returned null
      | some encryptedShare =>
        match decryptShare G SJ encryptedShare pk with
        | none => acc  -- decryptShare threw; caught, logged, skipped
        | some share => (acc.1 ++ [share], acc.2 + 1)

/-- `ZkAuth.login(pk)`: poll enabled backends in order, stopping once
`threshold` shares are collected; per-backend fetch/decrypt failures are
caught and skipped.  Fails (`InsufficientShares`) below the threshold, then
reconstructs via `combineShares` and `masterKeyFromHex`. -/
def login (G : GcmScheme) (SJ : ShareCodec) (st : Stores) (threshold : Nat) (pk : String) :
    Option LoginResult :=
  let userId := generateUserId pk
  if ¬ isRegistered st threshold userId then none  -- NotRegistered
  else
    let fetched := (getEnabledChains st).foldl (loginStep G SJ st threshold userId pk) ([], 0)
    if fetched.1.length < threshold then none  -- InsufficientShares
    else match combineShares fetched.1 with
      | none => none
      | some masterKeyHex =>
        match masterKeyFromHex masterKeyHex with
        | none => none
        | some masterKey =>
          some { success := true, userId := userId, masterKey := masterKey,
                 sharesUsed := fetched.2 }

/-! ## `sessionToken.ts` — stateless Ed25519 session tokens

tweetnacl's Ed25519 and the `btoa(JSON.stringify(·))` wire encoding are
library boundaries, modelled from the spec: a signature scheme whose
verification accepts genuine signatures, and an injective token encoding
with a partial inverse (`parseSessionToken` returns `null` on anything that
fails to decode).  The payload-JSON bytes fed to the signer are produced by
an arbitrary function `payloadJson` (`JSON.stringify` + `TextEncoder`);
none of the claims need its injectivity. -/

structure SessionTokenPayload where
  zkId : String
  email : String
  googleUserId : String
  iat : Nat
  exp : Nat
deriving DecidableEq, Repr

structure SessionToken where
  payload : SessionTokenPayload
  signature : String
  publicKey : String
deriving DecidableEq, Repr

/-- Modelled from the spec (§4.10): tweetnacl Ed25519.  `sign msg sk` =
`nacl.sign.detached`, `pub` = public key of the keypair from a seed,
`verify` = `nacl.sign.detached.verify`; genuine signatures verify. -/
structure EdScheme where
  sign : String → String → String
  pub : String → String
  verify : String → String → String → Bool
  verify_sign : ∀ msg sk, verify (sign msg sk) msg (pub sk) = true

/-- Modelled from the spec: `btoa(JSON.stringify(token))` and its inverse
`JSON.parse(atob(·))` over an abstract wire type; decoding inverts encoding
and fails (`null`) on anything else. -/
structure TokenCodec (W : Type) where
  enc : SessionToken → W
  dec : W → Option SessionToken
  dec_enc : ∀ t, dec (enc t) = some t

/-- `createSessionToken(payload, privateKeyHex, expiryHours)` at time `now`
(seconds): fill in `iat`/`exp`, sign the payload JSON, wrap and encode. -/
def createSessionToken {W : Type} (E : EdScheme) (C : TokenCodec W)
    (payloadJson : SessionTokenPayload → String)
    (zkId email googleUserId : String) (sk : String) (expiryHours : Nat) (now : Nat) : W :=
  let fullPayload : SessionTokenPayload :=
    { zkId := zkId, email := email, googleUserId := googleUserId,
      iat := now, exp := now + expiryHours * 3600 }
  C.enc { payload := fullPayload,
          signature := E.sign (payloadJson fullPayload) sk,
          publicKey := E.pub sk }

/-- `parseSessionToken`: decode, `null` on failure. -/
def parseSessionToken {W : Type} (C : TokenCodec W) (tokenString : W) : Option SessionToken :=
  C.dec tokenString

/-- `verifySessionToken` at time `now` (seconds): parse, reject if
`exp < now`, then check the Ed25519 signature over the payload JSON under
the carried public key; returns the payload on success, `null` otherwise. -/
def verifySessionToken {W : Type} (E : EdScheme) (C : TokenCodec W)
    (payloadJson : SessionTokenPayload → String) (now : Nat) (tokenString : W) :
    Option SessionTokenPayload :=
  match parseSessionToken C tokenString with
  | none => none
  | some token =>
    if token.payload.exp < now then none  -- expired
    else if E.verify token.signature (payloadJson token.payload) token.publicKey then
      some token.payload
    else none  -- invalid signature

/-! ## `zk2fa/totp.ts` — TOTP verification front gate

The RFC 6238 computation itself lives in the `otpauth` library; it is
abstracted as `validate : normalizedCode → secret → Bool` (reached only
after the format gate). -/

/-- `code.replace(/\s/g, '')`. -/
def stripWs (code : String) : String := ⟨code.data.filter (fun c => ¬ isJsWs c)⟩

/-- The `/^\d{6}$/` test: exactly six ASCII decimal digits. -/
def isSixDigits (s : String) : Bool := s.data.length == 6 && s.data.all Char.isDigit

/-- `verifyTOTP(code, secret)`: strip whitespace, require six digits (else
`false` before the secret is even parsed), then delegate to the library. -/
def verifyTOTP (validate : String → String → Bool) (code secret : String) : Bool :=
  let normalizedCode := stripWs code
  if isSixDigits normalizedCode then validate normalizedCode secret else false

/-! ## Encoding lemmas -/

theorem hexDigitVal_hexDigit {d : Nat} (h : d < 16) :
    hexDigitVal (hexDigit d) = some d := by
  interval_cases d <;> decide

theorem and15_eq_mod (n : Nat) : n &&& 15 = n % 16 := by
  have := Nat.and_pow_two_sub_one_eq_mod n 4
  norm_num at this
  exact this

theorem mod_hex_split (k n : Nat) :
    n % 16 ^ (k + 1) = 16 * ((n / 16) % 16 ^ k) + n % 16 := by
  have h1 : (n / 16) % 16 ^ k = n % (16 * 16 ^ k) / 16 :=
    (Nat.mod_mul_right_div_self n 16 (16 ^ k)).symm
  have h2 : n % (16 * 16 ^ k) % 16 = n % 16 :=
    Nat.mod_mod_of_dvd n ⟨16 ^ k, rfl⟩
  have h3 : (16 : Nat) ^ (k + 1) = 16 * 16 ^ k := by ring
  rw [h3, h1, ← h2, Nat.div_add_mod (n % (16 * 16 ^ k)) 16]

theorem hexDigitsBE_succ (k n : Nat) :
    hexDigitsBE (k + 1) n = hexDigitsBE k (n >>> 4) ++ [hexDigit (n &&& 15)] := by
  unfold hexDigitsBE
  rw [List.range_succ, List.map_append]
  congr 1
  · apply List.map_congr_left
    intro i hi
    have hik : i < k := List.mem_range.mp hi
    have h4 : 4 * (k + 1 - 1 - i) = 4 + 4 * (k - 1 - i) := by omega
    rw [h4, Nat.shiftRight_add]
  · simp

theorem foldl_hexDigitsBE (k : Nat) : ∀ n acc,
    (hexDigitsBE k n).foldlM (fun acc c => (hexDigitVal c).map (fun d => 16 * acc + d))
        acc = some (acc * 16 ^ k + n % 16 ^ k) := by
  induction k with
  | zero => intro n acc; simp [hexDigitsBE, Nat.mod_one]
  | succ k ih =>
    intro n acc
    rw [hexDigitsBE_succ, List.foldlM_append, ih]
    have h15 : n &&& 15 = n % 16 := and15_eq_mod n
    have hlt : n &&& 15 < 16 := by rw [h15]; exact Nat.mod_lt _ (by norm_num)
    simp only [List.foldlM, hexDigitVal_hexDigit hlt, Option.map_some, bind,
      Option.bind_some, Option.some.injEq, pure]
    rw [h15, Nat.shiftRight_eq_div_pow]
    rw [mod_hex_split k n]
    norm_num
    ring

/-- Parsing inverts the fixed-width hex encoding on 256-bit values. -/
theorem hexToNat_natToHex64 {n : Nat} (h : n < 2 ^ 256) :
    hexToNat? (natToHex64 n) = some n := by
  have h16 : (16 : Nat) ^ 64 = 2 ^ 256 := by norm_num
  have := foldl_hexDigitsBE 64 n 0
  unfold hexToNat? natToHex64
  simp only [String.data]
  rw [this, Nat.mod_eq_of_lt (by rw [h16]; exact h)]
  simp

theorem hexDigit_lt_16_val {d : Nat} (h : d < 16) : (hexDigit d).toNat < 128 := by
  interval_cases d <;> decide

/-- `Buffer.from(·,'hex')` inverts `toString('hex')` on byte lists. -/
theorem strToBytes_bytesToHexStr {bs : List Nat} (h : ∀ b ∈ bs, b < 256) :
    strToBytes (bytesToHexStr bs) = bs := by
  induction bs with
  | nil => rfl
  | cons b t ih =>
    have hb : b < 256 := h b (List.mem_cons_self b t)
    have ht : ∀ x ∈ t, x < 256 := fun x hx => h x (List.mem_cons_of_mem b hx)
    have hhi : (b >>> 4) &&& 15 = b / 16 := by
      rw [and15_eq_mod, Nat.shiftRight_eq_div_pow]
      have h2 : (2 : Nat) ^ 4 = 16 := by norm_num
      rw [h2]
      exact Nat.mod_eq_of_lt (by omega)
    have hlo : b &&& 15 = b % 16 := and15_eq_mod b
    have hhi16 : (b >>> 4) &&& 15 < 16 := by rw [hhi]; omega
    have hlo16 : b &&& 15 < 16 := by rw [hlo]; omega
    unfold strToBytes bytesToHexStr at *
    simp only [List.foldr] at *
    unfold hexToBytesLax
    rw [hexDigitVal_hexDigit hhi16, hexDigitVal_hexDigit hlo16]
    simp only []
    rw [hhi, hlo, Nat.div_add_mod, ih ht]

/-! ### SHA-256 sanity: FIPS 180-2 and RFC 4231 test vectors -/

theorem sha256_abc_vector :
    bytesToHexStr (sha256 (asciiBytes "abc")) =
      "ba7816bf8f01cfea414140de5dae2223b00361a396177a9cb410ff61f20015ad" := by decide

theorem sha256_empty_vector :
    bytesToHexStr (sha256 []) =
      "e3b0c44298fc1c149afbf4c8996fb92427ae41e4649b934ca495991b7852b855" := by decide

theorem hmacSha256_rfc4231_vector :
    bytesToHexStr (hmacSha256 (asciiBytes "Jefe") (asciiBytes "what do ya want for nothing?")) =
      "5bdcc146bf60754e6a042426089575c75a003f089d2739839dec58b964ec3843" := by decide

/-! ### Decimal codec lemmas (for the concrete `ShareCodec` instance) -/

/-- Value of a little-endian decimal digit list. -/
def decValLE (l : List Char) : Nat := l.foldr (fun c acc => (c.toNat - 48) + 10 * acc) 0

theorem someBind {A B : Type} (a : A) (f : A → Option B) : (some a).bind f = f a := rfl

theorem hexDigit_toNat_lt10 {d : Nat} (h : d < 10) : (hexDigit d).toNat = 48 + d := by
  interval_cases d <;> decide

theorem hexDigit_isDigit_lt10 {d : Nat} (h : d < 10) : (hexDigit d).isDigit = true := by
  interval_cases d <;> decide

theorem natToDecRev_digits : ∀ fuel n, ∀ c ∈ natToDecRev fuel n, c.isDigit = true := by
  intro fuel
  induction fuel with
  | zero => intro n c hc; simp [natToDecRev] at hc
  | succ fuel ih =>
    intro n c hc
    unfold natToDecRev at hc
    by_cases hn : n = 0
    · simp [hn] at hc
    · simp only [if_neg hn, List.mem_cons] at hc
      rcases hc with hc | hc
      · subst hc
        exact hexDigit_isDigit_lt10 (Nat.mod_lt _ (by norm_num))
      · exact ih (n / 10) c hc

theorem natToDecRev_val : ∀ fuel n, n ≤ fuel → decValLE (natToDecRev fuel n) = n := by
  intro fuel
  induction fuel with
  | zero => intro n h; interval_cases n; rfl
  | succ fuel ih =>
    intro n h
    unfold natToDecRev
    by_cases hn : n = 0
    · simp [hn, decValLE]
    · rw [if_neg hn]
      unfold decValLE at *
      simp only [List.foldr]
      rw [ih (n / 10) (by omega)]
      rw [hexDigit_toNat_lt10 (Nat.mod_lt _ (by norm_num))]
      omega

theorem decToNat_rev_append : ∀ (l : List Char) (acc : Nat),
    (∀ c ∈ l, c.isDigit = true) →
    l.reverse.foldlM
        (fun acc c => if c.isDigit then some (10 * acc + (c.toNat - 48)) else none) acc =
      some (acc * 10 ^ l.length + decValLE l) := by
  intro l
  induction l with
  | nil => intro acc _; simp [decValLE]
  | cons c t ih =>
    intro acc hd
    have hc : c.isDigit = true := hd c (List.mem_cons_self c t)
    have ht : ∀ x ∈ t, x.isDigit = true := fun x hx => hd x (List.mem_cons_of_mem c hx)
    simp only [List.reverse_cons]
    rw [List.foldlM_append, ih acc ht]
    simp only [List.foldlM, hc, if_pos, bind, pure, someBind, Option.some.injEq]
    unfold decValLE
    simp only [List.foldr, List.length_cons]
    ring

/-- Decimal parsing inverts the canonical encoding. -/
theorem decToNat_natToDec (n : Nat) : decToNat? (natToDec n).data = some n := by
  unfold natToDec
  by_cases hn : n = 0
  · subst hn; decide
  · rw [if_neg hn]
    unfold decToNat?
    simp only [String.data]
    rw [decToNat_rev_append (natToDecRev n n) 0 (natToDecRev_digits n n)]
    rw [natToDecRev_val n n (le_refl n)]
    simp

theorem natToDec_ne_nil (n : Nat) : (natToDec n).data ≠ [] := by
  unfold natToDec
  by_cases hn : n = 0
  · subst hn; rw [if_pos rfl]; decide
  · rw [if_neg hn]
    simp only [String.data]
    intro h
    have := natToDecRev_val n n (le_refl n)
    rw [List.reverse_eq_nil_iff.mp h] at this
    exact hn (by simpa [decValLE] using this.symm)

theorem natToDec_digits (n : Nat) :
    ∀ c ∈ (natToDec n).data, c.isDigit = true := by
  unfold natToDec
  by_cases hn : n = 0
  · intro c hc
    rw [if_pos hn] at hc
    have : c = '0' := by simpa using hc
    subst this
    decide
  · intro c hc
    rw [if_neg hn] at hc
    simp only [String.data] at hc
    exact natToDecRev_digits n n c (List.mem_reverse.mp hc)

/-- Signed decimal parsing inverts `intToDec`. -/
theorem decToInt_intToDec (x : Int) : decToInt? (intToDec x) = some x := by
  unfold intToDec decToInt?
  by_cases hx : x < 0
  · rw [if_pos hx]
    have hdata : ("-" ++ natToDec x.natAbs).data = '-' :: (natToDec x.natAbs).data := by
      rw [String.data_append]
      rfl
    rw [hdata]
    have hred : decIntAux ('-' :: (natToDec x.natAbs).data) =
        (decToNat? (natToDec x.natAbs).data).map (fun (n : Nat) => -(n : Int)) := by
      simp [decIntAux]
    rw [hred, decToNat_natToDec x.natAbs]
    simp only [Option.map_some', Option.some.injEq]
    omega
  · rw [if_neg hx]
    rcases hcons : (natToDec x.natAbs).data with _ | ⟨c, rest⟩
    · exact absurd hcons (natToDec_ne_nil x.natAbs)
    · have hd : c.isDigit = true := by
        have := natToDec_digits x.natAbs c
        rw [hcons] at this
        exact this (List.mem_cons_self c rest)
      have hne : ¬ c = '-' := by
        intro h
        rw [h] at hd
        simp [Char.isDigit] at hd
      have hred : decIntAux (c :: rest) =
          (decToNat? (c :: rest)).map (fun (n : Nat) => (n : Int)) := by
        simp only [decIntAux]
        rw [if_neg hne]
      have hn := decToNat_natToDec x.natAbs
      rw [hcons] at hn
      rw [hred, hn]
      simp only [Option.map_some', Option.some.injEq]
      omega

theorem takeWhile_append_cons_of_all {p : Char → Bool} :
    ∀ (l1 : List Char) (c : Char) (l2 : List Char), (∀ x ∈ l1, p x = true) → p c = false →
      ((l1 ++ c :: l2).takeWhile p = l1 ∧ (l1 ++ c :: l2).dropWhile p = c :: l2) := by
  intro l1
  induction l1 with
  | nil =>
    intro c l2 _ hc
    simp [List.takeWhile_cons, List.dropWhile_cons, hc]
  | cons a t ih =>
    intro c l2 h1 hc
    have ha : p a = true := h1 a (List.mem_cons_self a t)
    have ht : ∀ x ∈ t, p x = true := fun x hx => h1 x (List.mem_cons_of_mem a hx)
    have := ih c l2 ht hc
    simp [List.takeWhile_cons, List.dropWhile_cons, ha, this.1, this.2]

theorem intToDec_chars (x : Int) : ∀ c ∈ (intToDec x).data, c = '-' ∨ c.isDigit = true := by
  unfold intToDec
  by_cases hx : x < 0
  · rw [if_pos hx]
    intro c hc
    rw [String.data_append] at hc
    rcases List.mem_append.mp hc with hc | hc
    · left; simpa using hc
    · right; exact natToDec_digits x.natAbs c hc
  · rw [if_neg hx]
    intro c hc
    right
    exact natToDec_digits x.natAbs c hc

/-- Parse the `"<x>,<y>"` rendering of a share. -/
def shareDec (str : String) : Option ShareData :=
  match (str.data.span (fun c => !(c = ','))).2 with
  | [] => none
  | c :: rest =>
    if c = ',' then
      match decToInt? ⟨(str.data.span (fun c => !(c = ','))).1⟩, decToInt? ⟨rest⟩ with
      | some x, some y => some { x := x, y := y }
      | _, _ => none
    else none

/-- A concrete, lawful `ShareCodec`: a share is rendered as the two decimal
field values separated by a comma (a faithful stand-in for the JSON object
`{"x":"…","y":"…"}` — any injective rendering with a one-sided inverse
satisfies the `JSON.stringify`/`JSON.parse` contract the code relies on). -/
def shareCodecDec : ShareCodec where
  enc s := intToDec s.x ++ "," ++ intToDec s.y
  dec := shareDec
  dec_enc := by
    intro s
    have hdata : (intToDec s.x ++ "," ++ intToDec s.y).data =
        (intToDec s.x).data ++ ',' :: (intToDec s.y).data := by
      rw [String.data_append, String.data_append]
      rw [show (",".data : List Char) = [','] from rfl]
      rw [List.append_assoc]
      rfl
    have hall : ∀ x ∈ (intToDec s.x).data, (fun c => !(c = ',')) x = true := by
      intro c hc
      rcases intToDec_chars s.x c hc with h | h
      · subst h; decide
      · simp only [Bool.not_eq_true', decide_eq_false_iff_not]
        intro hceq
        rw [hceq] at h
        simp [Char.isDigit] at h
    have htd := takeWhile_append_cons_of_all (p := fun c => !(c = ','))
      (intToDec s.x).data ',' (intToDec s.y).data hall (by decide)
    have hspan := List.span_eq_take_drop (fun c => !(c = ','))
      ((intToDec s.x).data ++ ',' :: (intToDec s.y).data)
    have hx : decToInt? ⟨(intToDec s.x).data⟩ = some s.x := decToInt_intToDec s.x
    have hy : decToInt? ⟨(intToDec s.y).data⟩ = some s.y := decToInt_intToDec s.y
    unfold shareDec
    rw [hdata]
    simp only [hspan, htd.1, htd.2, if_pos, hx, hy]

/-! ## Claim C3 — constructor validation -/

/-- C3 (amended): the `ZkAuth` constructor fails with `ConfigError` exactly
when fewer backends are enabled than the effective threshold
(`config.threshold || 2`).  Contrary to the claim as stated, `T < 2` and
`N > 255` are not checked at construction (they only surface later, inside
`splitMasterKey` during `register`). -/
theorem mkZkAuth_none_iff (config : ZkAuthConfig) :
    mkZkAuth config = none ↔
      (if config.zcash then 1 else 0) + (if config.starknet then 1 else 0) +
        (if config.solana then 1 else 0) < jsOrDefault config.threshold 2 := by
  rcases config with ⟨z, s, so, t, n⟩
  rcases z <;> rcases s <;> rcases so <;>
    simp [mkZkAuth, getEnabledChains] <;>
    (constructor <;> (intro h; omega))

/-- C3 counterexample: a config with `threshold = 1` (violating `T ≥ 2`) and
one with `totalShares = 300` (violating `N ≤ 255`) are both accepted by the
constructor, refuting "construction fails … for every configuration with …
T < 2, or with N > 255". -/
theorem mkZkAuth_accepts_bad_threshold_and_totalShares :
    (mkZkAuth { zcash := true, starknet := false, solana := false,
                threshold := some 1, totalShares := some 3 }).isSome = true ∧
    (mkZkAuth { zcash := true, starknet := true, solana := true,
                threshold := some 2, totalShares := some 300 }).isSome = true := by
  constructor <;> rfl

/-! ## Claim C9 — TOTP format gate -/

/-- C9: for every code whose whitespace-stripped form is not exactly six
decimal digits, `verifyTOTP` returns `false`, for every secret and whatever
the underlying RFC 6238 validator would say. -/
theorem verifyTOTP_false_of_bad_format (validate : String → String → Bool)
    (code secret : String) (h : isSixDigits (stripWs code) = false) :
    verifyTOTP validate code secret = false := by
  unfold verifyTOTP
  simp [h]

/-- C9 witness: `"12 345"` strips to five digits and is rejected even when
the underlying validator accepts everything. -/
theorem verifyTOTP_false_of_bad_format_witness :
    isSixDigits (stripWs "12 345") = false ∧
      verifyTOTP (fun _ _ => true) "12 345" "JBSWY3DPEHPK3PXP" = false :=
  ⟨by decide, verifyTOTP_false_of_bad_format (fun _ _ => true) "12 345" "JBSWY3DPEHPK3PXP"
    (by decide)⟩

/-! ## Claim C4 — the two second-factor lookup-key derivations -/

/-- C4: the code is wrong — `derive2FALookupKey` (lookup.ts, HMAC-SHA-256)
and `derive2FALookupKeyClient` (zk2fa/storage.ts, a 32-bit JS string hash
padded with zeros) disagree, evaluated here at `email = "a@b.c"`,
`userId = "u"`; the on-chain fetch keyed by the client value can never find
records stored under the HMAC value. -/
theorem derive2FA_lookup_keys_differ :
    derive2FALookupKey "a@b.c" "u" ≠ derive2FALookupKeyClient "a@b.c" "u" := by decide

/-! ## Claim C6 — combineShares input validation -/

/-- C6 (amended): `combineShares` fails with `InvalidInput` on every list of
fewer than 2 shares and on every list with a duplicated `x` value (in
particular `[s1, s1]`).  Contrary to the claim as stated, it never receives
the split threshold `T`, so a list of at least 2 distinct-`x` shares is
accepted even when `T` was larger. -/
theorem combineShares_failure_modes :
    (∀ shares : List ShareData, shares.length < 2 → combineShares shares = none) ∧
    (∀ shares : List ShareData, ¬ (shares.map ShareData.x).Nodup → combineShares shares = none) ∧
    (∀ s1 : ShareData, combineShares [s1, s1] = none) := by
  refine ⟨?_, ?_, ?_⟩
  · intro shares h
    unfold combineShares
    rw [if_pos h]
  · intro shares h
    unfold combineShares
    by_cases hlen : shares.length < 2
    · rw [if_pos hlen]
    · rw [if_neg hlen, if_neg h]
  · intro s1
    unfold combineShares
    rw [if_neg (by simp), if_neg (by simp)]

/-- C6 witness: the three failure modes at concrete shares. -/
theorem combineShares_failure_modes_witness :
    combineShares [] = none ∧
      combineShares [{ x := 1, y := 2 }, { x := 1, y := 3 }] = none ∧
      combineShares [{ x := 5, y := 6 }, { x := 5, y := 6 }] = none :=
  ⟨combineShares_failure_modes.1 [] (by decide),
   combineShares_failure_modes.2.1 [{ x := 1, y := 2 }, { x := 1, y := 3 }] (by decide),
   combineShares_failure_modes.2.2 { x := 5, y := 6 }⟩

/-- C6 counterexample: after a `T = 3` split, two distinct shares already
combine successfully (no `InvalidInput`), refuting "fails … on every input
list containing fewer than T distinct shares". -/
theorem combineShares_succeeds_below_threshold :
    (splitMasterKey (natToHex64 7) 3 3 [1, 1]).map
      (fun spl => (combineShares (spl.shares.take 2)).isSome) = some true := by decide

/-! ## Claim C8 — AEAD round trip -/

/-- A concrete lawful `GcmScheme` for witnesses: the "ciphertext" is the
plaintext itself and the tag is a fixed byte (the contract only demands
that decryption invert encryption). -/
def gcmId : GcmScheme where
  enc := fun _ _ data => (data, [0])
  dec := fun _ _ ct tag => if tag = [0] then some ct else none
  dec_enc := by intro key iv data; rfl
  tag_bytes := by
    intro key iv data b hb
    simp at hb
    omega

/-- Round trip of `encryptData`/`decryptData` (shared helper). -/
theorem decryptData_encryptData (G : GcmScheme) (iv : List Nat) (hiv : ∀ b ∈ iv, b < 256)
    (data : String) (masterKey : MasterKey) :
    decryptData G (encryptData G iv data masterKey) masterKey = some data := by
  unfold decryptData encryptData
  simp only []
  rw [strToBytes_bytesToHexStr hiv,
    strToBytes_bytesToHexStr (G.tag_bytes masterKey.keyBytes iv data)]
  exact G.dec_enc masterKey.keyBytes iv data

/-- Round trip of `encryptWithPK`/`decryptWithPK` (shared helper). -/
theorem decryptWithPK_encryptWithPK (G : GcmScheme) (iv : List Nat) (hiv : ∀ b ∈ iv, b < 256)
    (data pk : String) :
    decryptWithPK G (encryptWithPK G iv data pk) pk = some data := by
  unfold decryptWithPK encryptWithPK
  simp only []
  rw [strToBytes_bytesToHexStr hiv,
    strToBytes_bytesToHexStr (G.tag_bytes (deriveEncryptionKey pk) iv data)]
  exact G.dec_enc (deriveEncryptionKey pk) iv data

/-- C8: the AEAD round trip — for every cipher satisfying the AES-256-GCM
contract, every IV of bytes, every master key / pk and every message,
`decryptData ∘ encryptData` (keyed by the raw master key) and
`decryptWithPK ∘ encryptWithPK` (keyed by `sha256(unhex(pk))`) return the
message. -/
theorem aead_roundtrip (G : GcmScheme) (iv : List Nat) (hiv : ∀ b ∈ iv, b < 256)
    (data : String) (masterKey : MasterKey) (pk : String) :
    decryptData G (encryptData G iv data masterKey) masterKey = some data ∧
    decryptWithPK G (encryptWithPK G iv data pk) pk = some data :=
  ⟨decryptData_encryptData G iv hiv data masterKey,
   decryptWithPK_encryptWithPK G iv hiv data pk⟩

/-- C8 witness: the round trip at a concrete cipher, IV, key and message. -/
theorem aead_roundtrip_witness :
    decryptData gcmId
        (encryptData gcmId [1, 2, 3, 4, 5, 6, 7, 8, 9, 10, 11, 12] "Hello"
          { key := natToHex64 3, keyBytes := List.replicate 32 0 })
        { key := natToHex64 3, keyBytes := List.replicate 32 0 } = some "Hello" ∧
    decryptWithPK gcmId
        (encryptWithPK gcmId [1, 2, 3, 4, 5, 6, 7, 8, 9, 10, 11, 12] "Hello" (natToHex64 3))
        (natToHex64 3) = some "Hello" :=
  aead_roundtrip gcmId [1, 2, 3, 4, 5, 6, 7, 8, 9, 10, 11, 12] (by decide) "Hello"
    { key := natToHex64 3, keyBytes := List.replicate 32 0 } (natToHex64 3)

/-! ## Claim C2 — decryptShare and the `x = shareIndex` invariant -/

/-- `decryptShare` inverts `encryptShare` for *any* `shareIndex`, matching
or not (shared helper). -/
theorem decryptShare_encryptShare (G : GcmScheme) (SJ : ShareCodec) (iv : List Nat)
    (hiv : ∀ b ∈ iv, b < 256) (share : ShareData) (shareIndex : Nat) (chain : ChainType)
    (pk : String) :
    decryptShare G SJ (encryptShare G SJ iv share shareIndex chain pk) pk = some share := by
  unfold decryptShare encryptShare
  simp only []
  have h := decryptWithPK_encryptWithPK G iv hiv (SJ.enc share) pk
  unfold decryptWithPK encryptWithPK at h ⊢
  simp only [] at h ⊢
  rw [h]
  simp only [Option.some_bind]
  exact SJ.dec_enc share

/-- C2 (amended): `decryptShare` returns the embedded `ShareData` whenever
the AEAD envelope decrypts and parses — it never compares the embedded `x`
with the envelope's `shareIndex`, so a mismatched envelope is returned
rather than rejected with `AuthenticationFailure`. -/
theorem decryptShare_ignores_shareIndex (G : GcmScheme) (SJ : ShareCodec) (iv : List Nat)
    (hiv : ∀ b ∈ iv, b < 256) (share : ShareData) (shareIndex : Nat) (chain : ChainType)
    (pk : String) :
    decryptShare G SJ (encryptShare G SJ iv share shareIndex chain pk) pk = some share :=
  decryptShare_encryptShare G SJ iv hiv share shareIndex chain pk

/-- C2 witness: the amended behaviour at a concrete envelope. -/
theorem decryptShare_ignores_shareIndex_witness :
    decryptShare gcmId shareCodecDec
        (encryptShare gcmId shareCodecDec [0, 0, 0, 0, 0, 0, 0, 0, 0, 0, 0, 0]
          { x := 3, y := 9 } 7 ChainType.solana (natToHex64 3))
        (natToHex64 3) = some { x := 3, y := 9 } :=
  decryptShare_ignores_shareIndex gcmId shareCodecDec _ (by decide)
    { x := 3, y := 9 } 7 ChainType.solana (natToHex64 3)

/-- C2 counterexample: an envelope whose `shareIndex` is 2 but whose
embedded share has `x = 1` decrypts successfully (to that share) instead of
failing with `AuthenticationFailure`, refuting the claim as stated. -/
theorem decryptShare_accepts_mismatched_index :
    decryptShare gcmId shareCodecDec
        (encryptShare gcmId shareCodecDec [0, 0, 0, 0, 0, 0, 0, 0, 0, 0, 0, 0]
          { x := 1, y := 5 } 2 ChainType.zcash (natToHex64 3))
        (natToHex64 3) = some { x := 1, y := 5 } ∧
      (encryptShare gcmId shareCodecDec [0, 0, 0, 0, 0, 0, 0, 0, 0, 0, 0, 0]
          { x := 1, y := 5 } 2 ChainType.zcash (natToHex64 3)).shareIndex = 2 := by
  constructor
  · exact decryptShare_encryptShare gcmId shareCodecDec _ (by decide)
      { x := 1, y := 5 } 2 ChainType.zcash (natToHex64 3)
  · rfl

/-! ## Claim C7 — session-token verification -/

/-- A concrete lawful `EdScheme` for witnesses. -/
def edToy : EdScheme where
  sign := fun msg sk => msg ++ sk
  pub := fun sk => sk
  verify := fun sig msg pk => sig == msg ++ pk
  verify_sign := by intro msg sk; simp

/-- A concrete lawful `TokenCodec` over `Option SessionToken` (so that
undecodable wire values exist). -/
def tokenCodecOpt : TokenCodec (Option SessionToken) where
  enc := some
  dec := id
  dec_enc := fun _ => rfl

/-- C7: session-token verification is exactly as claimed — a freshly created
token whose `exp` has not passed verifies to its embedded payload, and
verification returns `null` whenever the token fails to parse, whenever
`exp < now`, and whenever the Ed25519 signature over the payload does not
verify под the carried public key (in particular after any alteration that
breaks the signature). -/
theorem sessionToken_verification {W : Type} (E : EdScheme) (C : TokenCodec W)
    (payloadJson : SessionTokenPayload → String) :
    (∀ zkId email googleUserId sk expiryHours created now,
        now ≤ created + expiryHours * 3600 →
        verifySessionToken E C payloadJson now
            (createSessionToken E C payloadJson zkId email googleUserId sk expiryHours created) =
          some { zkId := zkId, email := email, googleUserId := googleUserId,
                 iat := created, exp := created + expiryHours * 3600 }) ∧
    (∀ now w, C.dec w = none → verifySessionToken E C payloadJson now w = none) ∧
    (∀ now w t, C.dec w = some t → t.payload.exp < now →
        verifySessionToken E C payloadJson now w = none) ∧
    (∀ now w t, C.dec w = some t → ¬ t.payload.exp < now →
        E.verify t.signature (payloadJson t.payload) t.publicKey = false →
        verifySessionToken E C payloadJson now w = none) := by
  refine ⟨?_, ?_, ?_, ?_⟩
  · intro zkId email googleUserId sk expiryHours created now hexp
    unfold verifySessionToken createSessionToken parseSessionToken
    rw [C.dec_enc]
    simp only []
    rw [if_neg (not_lt.mpr hexp)]
    rw [if_pos (E.verify_sign _ sk)]
  · intro now w h
    unfold verifySessionToken parseSessionToken
    rw [h]
  · intro now w t hdec hexp
    unfold verifySessionToken parseSessionToken
    rw [hdec]
    simp only [if_pos hexp]
  · intro now w t hdec hexp hver
    unfold verifySessionToken parseSessionToken
    rw [hdec]
    simp only [if_neg hexp, hver]
    rfl

/-- C7 witness: the four behaviours at concrete tokens under concrete
lawful Ed25519 and wire-codec models. -/
theorem sessionToken_verification_witness :
    (verifySessionToken edToy tokenCodecOpt (fun _ => "") 50
        (createSessionToken edToy tokenCodecOpt (fun _ => "") "z" "e" "g" "sk" 1 100) =
      some { zkId := "z", email := "e", googleUserId := "g", iat := 100, exp := 100 + 1 * 3600 }) ∧
    (verifySessionToken edToy tokenCodecOpt (fun _ => "") 0 none = none) ∧
    (verifySessionToken edToy tokenCodecOpt (fun _ => "") 10
        (some { payload := { zkId := "", email := "", googleUserId := "", iat := 0, exp := 5 },
                signature := "s", publicKey := "p" }) = none) ∧
    (verifySessionToken edToy tokenCodecOpt (fun _ => "") 0
        (some { payload := { zkId := "", email := "", googleUserId := "", iat := 0, exp := 5 },
                signature := "bad", publicKey := "pk" }) = none) :=
  ⟨(sessionToken_verification edToy tokenCodecOpt (fun _ => "")).1 "z" "e" "g" "sk" 1 100 50
      (by omega),
   (sessionToken_verification edToy tokenCodecOpt (fun _ => "")).2.1 0 none rfl,
   (sessionToken_verification edToy tokenCodecOpt (fun _ => "")).2.2.1 10 _ _ rfl (by decide),
   (sessionToken_verification edToy tokenCodecOpt (fun _ => "")).2.2.2 0 _ _ rfl (by decide)
      (by decide)⟩

/-! ## Claim C10 — the login loop stops at the threshold -/

/-- The login loop keeps `sharesUsed` equal to the number of collected
shares and never collects beyond the threshold (the `break` fires first). -/
theorem login_loop_invariant (G : GcmScheme) (SJ : ShareCodec) (st : Stores) (threshold : Nat)
    (userId pk : String) :
    ∀ (chains : List ChainType) (acc : List ShareData × Nat),
      acc.2 = acc.1.length → acc.1.length ≤ threshold →
      ((chains.foldl (loginStep G SJ st threshold userId pk) acc).2 =
          (chains.foldl (loginStep G SJ st threshold userId pk) acc).1.length ∧
        (chains.foldl (loginStep G SJ st threshold userId pk) acc).1.length ≤ threshold) := by
  intro chains
  induction chains with
  | nil => intro acc h1 h2; exact ⟨h1, h2⟩
  | cons c rest ih =>
    intro acc h1 h2
    simp only [List.foldl_cons]
    by_cases hbrk : threshold ≤ acc.1.length
    · have : loginStep G SJ st threshold userId pk acc c = acc := by
        unfold loginStep
        rw [if_pos hbrk]
      rw [this]
      exact ih acc h1 h2
    · have hlt : acc.1.length < threshold := by omega
      unfold loginStep
      rw [if_neg hbrk]
      rcases getStorageForChain st c with _ | m
      · exact ih acc h1 h2
      · simp only []
        rcases m (storageKey c userId) with _ | es
        · exact ih acc h1 h2
        · simp only []
          rcases decryptShare G SJ es pk with _ | share
          · exact ih acc h1 h2
          · simp only []
            exact ih (acc.1 ++ [share], acc.2 + 1) (by simp [h1]) (by simp; omega)

/-- C10: on every successful login, `sharesUsed` is exactly the configured
threshold — the polling loop breaks as soon as `threshold` shares have been
collected and decrypted, so no more than `threshold` are ever counted. -/
theorem login_sharesUsed_eq_threshold (G : GcmScheme) (SJ : ShareCodec) (st : Stores)
    (threshold : Nat) (pk : String) (res : LoginResult)
    (h : login G SJ st threshold pk = some res) : res.sharesUsed = threshold := by
  unfold login at h
  dsimp only [] at h
  split at h
  · exact absurd h (by simp)
  · have hinv := login_loop_invariant G SJ st threshold (generateUserId pk) pk
      (getEnabledChains st) ([], 0) rfl (by simp)
    split at h
    · exact absurd h (by simp)
    · rename_i hlen
      split at h
      · exact absurd h (by simp)
      · split at h
        · exact absurd h (by simp)
        · have := Option.some.inj h
          subst this
          simp only []
          omega

/-- A concrete storage state holding two decryptable shares (zcash and
starknet) for the user derived from `pk = natToHex64 3`. -/
def demoStores : Stores :=
  let pk := natToHex64 3
  let uid := generateUserId pk
  { zcash := some (fun k => if k = storageKey ChainType.zcash uid
      then some (encryptShare gcmId shareCodecDec [0, 0, 0, 0, 0, 0, 0, 0, 0, 0, 0, 0]
        { x := 1, y := 8 } 1 ChainType.zcash pk) else none),
    starknet := some (fun k => if k = storageKey ChainType.starknet uid
      then some (encryptShare gcmId shareCodecDec [0, 0, 0, 0, 0, 0, 0, 0, 0, 0, 0, 0]
        { x := 2, y := 13 } 2 ChainType.starknet pk) else none),
    solana := some (fun _ => none) }

/-- C10 witness: a concrete successful 2-of-3 login uses exactly 2 shares. -/
theorem login_sharesUsed_witness :
    (login gcmId shareCodecDec demoStores 2 (natToHex64 3)).map LoginResult.sharesUsed =
      some 2 := by
  rcases hl : login gcmId shareCodecDec demoStores 2 (natToHex64 3) with _ | res
  · exact absurd hl (by decide)
  · simp [login_sharesUsed_eq_threshold gcmId shareCodecDec demoStores 2 (natToHex64 3) res hl]

/-! ## Claim C5 — registration pairing and result shape -/

theorem storeShare_other {st : Stores} {c c' : ChainType} {u : String} {sh : EncryptedShare}
    (h : c ≠ c') : getStorageForChain (storeShare st c' u sh) c = getStorageForChain st c := by
  cases c <;> cases c' <;>
    first
    | exact absurd rfl h
    | simp [storeShare, getStorageForChain]

theorem storeShare_self {st : Stores} {c : ChainType} {u : String} {sh : EncryptedShare}
    {m : String → Option EncryptedShare} (h : getStorageForChain st c = some m) :
    getStorageForChain (storeShare st c u sh) c =
      some (fun k => if k = storageKey c u then some sh else m k) := by
  cases c <;> simp_all [storeShare, getStorageForChain]

theorem storeShare_isSome (st : Stores) (c c' : ChainType) (u : String) (sh : EncryptedShare) :
    (getStorageForChain (storeShare st c' u sh) c).isSome =
      (getStorageForChain st c).isSome := by
  cases c <;> cases c' <;> simp [storeShare, getStorageForChain]

theorem enabled_isSome {st : Stores} {c : ChainType} (h : c ∈ getEnabledChains st) :
    (getStorageForChain st c).isSome = true := by
  rcases st with ⟨z, s, so⟩
  cases c <;> cases z <;> cases s <;> cases so <;>
    simp_all [getEnabledChains, getStorageForChain]

theorem getEnabledChains_nodup (st : Stores) : (getEnabledChains st).Nodup := by
  rcases st with ⟨z, s, so⟩
  cases z <;> cases s <;> cases so <;> simp [getEnabledChains]

theorem listGetD_mem {A : Type} {l : List A} {i : Nat} (h : i < l.length) (d : A) :
    l.getD i d ∈ l := by
  simp only [List.getD_eq_getElem?_getD, List.getElem?_eq_getElem h, Option.getD_some]
  exact List.getElem_mem h

theorem registerStep_fst (G : GcmScheme) (SJ : ShareCodec) (pk userId : String)
    (ivs : Nat → List Nat) (txh : Nat → String) (ss : List ShareData) (en : List ChainType)
    (acc : List EncryptedShare × Stores) (i : Nat) :
    (registerStep G SJ pk userId ivs txh ss en acc i).1 =
      acc.1 ++ [registerEnvelope G SJ pk ivs txh ss en i] := rfl

theorem registerStep_snd (G : GcmScheme) (SJ : ShareCodec) (pk userId : String)
    (ivs : Nat → List Nat) (txh : Nat → String) (ss : List ShareData) (en : List ChainType)
    (acc : List EncryptedShare × Stores) (i : Nat) :
    (registerStep G SJ pk userId ivs txh ss en acc i).2 =
      storeShare acc.2 (en.getD i ChainType.zcash) userId
        (registerEnvelope G SJ pk ivs txh ss en i) := rfl

/-- The collected-envelope half of the register loop. -/
theorem register_fold_shares (G : GcmScheme) (SJ : ShareCodec) (pk userId : String)
    (ivs : Nat → List Nat) (txh : Nat → String) (ss : List ShareData) (en : List ChainType) :
    ∀ (n : Nat) (acc : List EncryptedShare × Stores),
      ((List.range n).foldl (registerStep G SJ pk userId ivs txh ss en) acc).1 =
        acc.1 ++ (List.range n).map (registerEnvelope G SJ pk ivs txh ss en) := by
  intro n
  induction n with
  | zero => intro acc; simp
  | succ n ih =>
    intro acc
    rw [List.range_succ, List.foldl_append, List.map_append]
    simp only [List.foldl_cons, List.foldl_nil, List.map_cons, List.map_nil]
    rw [registerStep_fst, ih acc, List.append_assoc]

/-- The register loop never changes which backends exist. -/
theorem register_fold_isSome (G : GcmScheme) (SJ : ShareCodec) (pk userId : String)
    (ivs : Nat → List Nat) (txh : Nat → String) (ss : List ShareData) (en : List ChainType) :
    ∀ (n : Nat) (acc : List EncryptedShare × Stores) (c : ChainType),
      (getStorageForChain ((List.range n).foldl
          (registerStep G SJ pk userId ivs txh ss en) acc).2 c).isSome =
        (getStorageForChain acc.2 c).isSome := by
  intro n
  induction n with
  | zero => intro acc c; rfl
  | succ n ih =>
    intro acc c
    rw [List.range_succ, List.foldl_append]
    simp only [List.foldl_cons, List.foldl_nil]
    rw [registerStep_snd, storeShare_isSome]
    exact ih acc c

/-- After the register loop, the `i`-th enabled backend holds the `i`-th
envelope under the user's composite key. -/
theorem register_fold_stored (G : GcmScheme) (SJ : ShareCodec) (pk userId : String)
    (ivs : Nat → List Nat) (txh : Nat → String) (ss : List ShareData) (en : List ChainType)
    (st0 : Stores)
    (hdist : ∀ i j, i < en.length → j < en.length → i ≠ j →
      en.getD i ChainType.zcash ≠ en.getD j ChainType.zcash)
    (hsome : ∀ c ∈ en, (getStorageForChain st0 c).isSome = true) :
    ∀ (n : Nat), n ≤ en.length → ∀ i, i < n →
      ∃ m, getStorageForChain ((List.range n).foldl
            (registerStep G SJ pk userId ivs txh ss en) ([], st0)).2
          (en.getD i ChainType.zcash) = some m ∧
        m (storageKey (en.getD i ChainType.zcash) userId) =
          some (registerEnvelope G SJ pk ivs txh ss en i) := by
  intro n
  induction n with
  | zero => intro _ i hi; omega
  | succ n ih =>
    intro hn i hi
    rw [List.range_succ, List.foldl_append]
    simp only [List.foldl_cons, List.foldl_nil]
    by_cases hin : i < n
    · obtain ⟨m, hm, hk⟩ := ih (by omega) i hin
      refine ⟨m, ?_, hk⟩
      rw [registerStep_snd, storeShare_other (hdist i n (by omega) (by omega) (by omega))]
      exact hm
    · have hieq : i = n := by omega
      subst hieq
      have hmem : en.getD i ChainType.zcash ∈ en := listGetD_mem (by omega) ChainType.zcash
      have hsome2 : (getStorageForChain ((List.range i).foldl
          (registerStep G SJ pk userId ivs txh ss en) ([], st0)).2
          (en.getD i ChainType.zcash)).isSome = true := by
        rw [register_fold_isSome]
        exact hsome _ hmem
      obtain ⟨mmid, hmmid⟩ := Option.isSome_iff_exists.mp hsome2
      rw [registerStep_snd, storeShare_self hmmid]
      exact ⟨_, rfl, by simp⟩

theorem getD_eq_getElem_of_lt {A : Type} {l : List A} {i : Nat} (h : i < l.length) (d : A) :
    l.getD i d = l.get ⟨i, h⟩ := by
  simp [List.getD_eq_getElem?_getD, List.getElem?_eq_getElem h]

theorem nodup_getD_ne {A : Type} {l : List A} (h : l.Nodup) (d : A) :
    ∀ i j, i < l.length → j < l.length → i ≠ j → l.getD i d ≠ l.getD j d := by
  intro i j hi hj hij heq
  rw [getD_eq_getElem_of_lt hi, getD_eq_getElem_of_lt hj] at heq
  exact hij (Fin.mk.injEq _ _ _ _ ▸ (h.get_inj_iff.mp heq))

theorem foldlM_hex_isSome : ∀ (l : List Char), (∀ c ∈ l, (hexDigitVal c).isSome = true) →
    ∀ acc : Nat,
      (l.foldlM (fun acc c => (hexDigitVal c).map (fun d => 16 * acc + d)) acc).isSome = true := by
  intro l
  induction l with
  | nil => intro _ acc; rfl
  | cons c t ih =>
    intro h acc
    have hc := h c (List.mem_cons_self c t)
    obtain ⟨d, hd⟩ := Option.isSome_iff_exists.mp hc
    simp only [List.foldlM, hd, Option.map_some', bind, someBind, pure]
    exact ih (fun x hx => h x (List.mem_cons_of_mem c hx)) (16 * acc + d)

theorem bytesToHexStr_chars (bs : List Nat) :
    ∀ c ∈ (bytesToHexStr bs).data, ∃ d, d < 16 ∧ c = hexDigit d := by
  induction bs with
  | nil => intro c hc; simp [bytesToHexStr] at hc
  | cons b t ih =>
    intro c hc
    unfold bytesToHexStr at hc
    simp only [List.foldr, String.data] at hc
    rw [List.mem_cons, List.mem_cons] at hc
    rcases hc with hc | hc | hc
    · exact ⟨(b >>> 4) &&& 15, by rw [and15_eq_mod]; exact Nat.mod_lt _ (by norm_num), hc⟩
    · exact ⟨b &&& 15, by rw [and15_eq_mod]; exact Nat.mod_lt _ (by norm_num), hc⟩
    · exact ih c hc

theorem hexToNat?_bytesToHexStr_isSome (bs : List Nat) :
    (hexToNat? (bytesToHexStr bs)).isSome = true := by
  unfold hexToNat?
  apply foldlM_hex_isSome
  intro c hc
  obtain ⟨d, hd, rfl⟩ := bytesToHexStr_chars bs c hc
  rw [hexDigitVal_hexDigit hd]
  rfl

/-- `splitMasterKey` on valid parameters and a parseable key. -/
theorem splitMasterKey_eq (key : String) (T N : Nat) (coeffs : List Int) (secret : Nat)
    (hT : 2 ≤ T) (hTN : T ≤ N) (hN : N ≤ 255) (hkey : hexToNat? key = some secret) :
    splitMasterKey key T N coeffs = some
      { shares := (List.range N).map (fun k =>
          { x := ((k + 1 : Nat) : Int),
            y := evaluatePolynomial ((secret : Int) :: coeffs) ((k + 1 : Nat) : Int) }),
        threshold := T, totalShares := N } := by
  unfold splitMasterKey
  rw [if_neg (by omega), if_neg (by omega), if_neg (by omega), hkey]

theorem getD_map_range {A : Type} (f : Nat → A) {n i : Nat} (h : i < n) (d : A) :
    ((List.range n).map f).getD i d = f i := by
  rw [getD_eq_getElem_of_lt (by simpa using h)]
  simp

/-- A throwaway envelope used as the `getD` default in statements. -/
def dummyEncryptedShare : EncryptedShare :=
  { shareIndex := 0, encryptedData := "", iv := "", tag := "", chain := ChainType.zcash,
    txHash := none }

/-- C5 (amended): `register`, for an unregistered user and valid sharing
parameters, succeeds and returns `success = true`,
`userId = "zkauth:" + sha256(unhex(pk))[0..16]`,
`masterKeyHash = sha256(raw master key)`, and exactly
`min totalShares (number of enabled backends)` shares — `totalShares` only
when at least that many backends are enabled, the claim's `N` otherwise
being silently truncated.  The `i`-th returned share has
`shareIndex = i + 1`, sits on the `i`-th enabled backend in the stable
order (zcash, starknet, solana), and is stored on that backend under the
user's composite key. -/
theorem register_result (G : GcmScheme) (SJ : ShareCodec) (A : ZkAuthState) (pk : String)
    (mkBytes : List Nat) (coeffs : List Int) (ivs : Nat → List Nat) (txh : Nat → String)
    (hreg : isRegistered A.stores A.threshold (generateUserId pk) = false)
    (hT : 2 ≤ A.threshold) (hTN : A.threshold ≤ A.totalShares) (hN : A.totalShares ≤ 255) :
    ∃ res st', register G SJ A pk mkBytes coeffs ivs txh = some (res, st') ∧
      res.success = true ∧
      res.userId = "zkauth:" ++ (bytesToHexStr (sha256 (strToBytes pk))).take 16 ∧
      res.masterKeyHash = bytesToHexStr (sha256 mkBytes) ∧
      res.shares.length = min A.totalShares (getEnabledChains A.stores).length ∧
      (∀ i, i < res.shares.length →
        (res.shares.getD i dummyEncryptedShare).shareIndex = i + 1 ∧
        (res.shares.getD i dummyEncryptedShare).chain =
          (getEnabledChains A.stores).getD i ChainType.zcash) ∧
      (∀ i, i < res.shares.length → ∃ m,
        getStorageForChain st' ((getEnabledChains A.stores).getD i ChainType.zcash) = some m ∧
        m (storageKey ((getEnabledChains A.stores).getD i ChainType.zcash)
            (generateUserId pk)) = some (res.shares.getD i dummyEncryptedShare)) := by
  obtain ⟨secret, hsec⟩ := Option.isSome_iff_exists.mp (hexToNat?_bytesToHexStr_isSome mkBytes)
  have hkey : (generateMasterKey mkBytes).key = bytesToHexStr mkBytes := rfl
  have hsplit := splitMasterKey_eq (bytesToHexStr mkBytes) A.threshold A.totalShares coeffs
    secret hT hTN hN hsec
  unfold register
  rw [if_neg (by rw [hreg]; simp)]
  dsimp only []
  rw [hkey, hsplit]
  dsimp only []
  set en := getEnabledChains A.stores with hen
  set ss := (List.range A.totalShares).map (fun k =>
    ({ x := ((k + 1 : Nat) : Int),
       y := evaluatePolynomial ((secret : Int) :: coeffs) ((k + 1 : Nat) : Int) } : ShareData))
    with hss
  set n := min ss.length en.length with hn
  have hlen : ss.length = A.totalShares := by rw [hss]; simp
  have hfold := register_fold_shares G SJ pk (generateUserId pk) ivs txh ss en n ([], A.stores)
  refine ⟨_, _, rfl, rfl, rfl, rfl, ?_, ?_, ?_⟩
  · simp only [hfold]
    simp [hn, hlen]
  · intro i hi
    simp only [hfold, List.nil_append] at hi ⊢
    have hi' : i < n := by simpa using hi
    rw [getD_map_range _ hi']
    exact ⟨rfl, rfl⟩
  · intro i hi
    simp only [hfold, List.nil_append] at hi ⊢
    have hi' : i < n := by simpa using hi
    have hnen : n ≤ en.length := by rw [hn]; omega
    have hstored := register_fold_stored G SJ pk (generateUserId pk) ivs txh ss en A.stores
      (nodup_getD_ne (getEnabledChains_nodup A.stores) ChainType.zcash)
      (fun c hc => enabled_isSome hc) n hnen i hi'
    obtain ⟨m, hm, hk⟩ := hstored
    refine ⟨m, hm, ?_⟩
    rw [getD_map_range _ hi']
    exact hk

/-- Three enabled backends, all empty. -/
def emptyStores3 : Stores :=
  { zcash := some fun _ => none, starknet := some fun _ => none, solana := some fun _ => none }

/-- A constructed 2-of-3 instance over the empty backends. -/
def demoState3 : ZkAuthState := { stores := emptyStores3, threshold := 2, totalShares := 3 }

/-- C5 witness: the amended registration contract at a concrete instance. -/
theorem register_result_witness :
    ∃ res st', register gcmId shareCodecDec demoState3 (natToHex64 3) (List.replicate 32 0) [5]
        (fun _ => List.replicate 12 0) (fun _ => "tx") = some (res, st') ∧
      res.success = true ∧
      res.userId = "zkauth:" ++ (bytesToHexStr (sha256 (strToBytes (natToHex64 3)))).take 16 ∧
      res.masterKeyHash = bytesToHexStr (sha256 (List.replicate 32 0)) ∧
      res.shares.length = min demoState3.totalShares
        (getEnabledChains demoState3.stores).length ∧
      (∀ i, i < res.shares.length →
        (res.shares.getD i dummyEncryptedShare).shareIndex = i + 1 ∧
        (res.shares.getD i dummyEncryptedShare).chain =
          (getEnabledChains demoState3.stores).getD i ChainType.zcash) ∧
      (∀ i, i < res.shares.length → ∃ m,
        getStorageForChain st' ((getEnabledChains demoState3.stores).getD i ChainType.zcash) =
          some m ∧
        m (storageKey ((getEnabledChains demoState3.stores).getD i ChainType.zcash)
            (generateUserId (natToHex64 3))) =
          some (res.shares.getD i dummyEncryptedShare)) :=
  register_result gcmId shareCodecDec demoState3 (natToHex64 3) (List.replicate 32 0) [5]
    (fun _ => List.replicate 12 0) (fun _ => "tx") (by decide) (by decide) (by decide) (by decide)

/-- C5 counterexample: with `totalShares = 4` but only three backends
enabled (a configuration the constructor accepts), `register` returns and
stores only 3 shares, refuting "stores every share … shares.length = N". -/
theorem register_truncates_shares :
    (register gcmId shareCodecDec { stores := emptyStores3, threshold := 2, totalShares := 4 }
        (natToHex64 3) (List.replicate 32 0) [5] (fun _ => List.replicate 12 0)
        (fun _ => "tx")).map (fun out => out.1.shares.length) = some 3 ∧
      ({ stores := emptyStores3, threshold := 2, totalShares := 4 } : ZkAuthState).totalShares
        = 4 := by
  constructor
  · decide
  · rfl

/-! ## Claim C1 — split/combine round trip

The mathematical core: the sum `lagrangeInterpolate` computes is the
constant term of the sharing polynomial.  Because `PRIME` is never proved
prime here, the argument avoids field structure on `ZMod PRIME` entirely:
the Lagrange identity is established over `ℚ` (where Mathlib's
interpolation applies), cleared of denominators into `ℤ`, pushed through
the ring morphism into `ZMod PRIME`, and combined with the concrete
inverses `modInverse` returns, whose defining property `d * d⁻¹ = 1` is
all that is used. -/

theorem jsmod_nonneg (a : Int) : 0 ≤ jsmod a :=
  Int.emod_nonneg a (by unfold PRIME; omega)

theorem jsmod_lt (a : Int) : jsmod a < (PRIME : Int) :=
  Int.emod_lt_of_pos a (by unfold PRIME; omega)

/-- Casting `mod` into `ZMod PRIME` forgets the reduction. -/
theorem cast_jsmod (a : Int) : ((jsmod a : Int) : ZMod PRIME) = (a : ZMod PRIME) := by
  unfold jsmod
  have h := Int.emod_add_ediv a (PRIME : Int)
  have h2 : (a % (PRIME : Int) : Int) = a - (PRIME : Int) * (a / (PRIME : Int)) := by omega
  rw [h2]
  push_cast
  rw [ZMod.natCast_self]
  ring

theorem cast_emod_prime (a : Int) : ((a % (PRIME : Int) : Int) : ZMod PRIME) = (a : ZMod PRIME) :=
  cast_jsmod a

/-- Correctness of the extended-Euclid loop: under the Bézout invariants,
a returned coefficient is an inverse of `A` in `ZMod PRIME`. -/
theorem egcdLoop_correct (A : ZMod PRIME) :
    ∀ (fuel : Nat) (r0 r s0 s b : Int),
      ((r0 : ZMod PRIME) = (s0 : ZMod PRIME) * A) →
      ((r : ZMod PRIME) = (s : ZMod PRIME) * A) →
      egcdLoop fuel r0 r s0 s = some b →
      (1 : ZMod PRIME) = (b : ZMod PRIME) * A := by
  intro fuel
  induction fuel with
  | zero => intro r0 r s0 s b _ _ h; exact absurd h (by simp [egcdLoop])
  | succ fuel ih =>
    intro r0 r s0 s b h0 h1 h
    unfold egcdLoop at h
    by_cases hr : r = 0
    · rw [if_pos hr] at h
      by_cases hr0 : r0 = 1
      · rw [if_pos hr0] at h
        have hb : s0 = b := Option.some.inj h
        subst hb
        rw [← h0, hr0]
        norm_num
      · rw [if_neg hr0] at h
        exact absurd h (by simp)
    · rw [if_neg hr] at h
      refine ih r (r0 % r) s (s0 - r0 / r * s) b h1 ?_ h
      have h2 : (r0 % r : Int) = r0 - r * (r0 / r) := by
        have := Int.emod_add_ediv r0 r
        omega
      rw [h2]
      push_cast
      rw [h0, h1]
      ring

/-- The loop succeeds whenever the inputs are non-negative and coprime,
given fuel exceeding the second argument. -/
theorem egcdLoop_isSome :
    ∀ (fuel : Nat) (r0 r s0 s : Int), 0 ≤ r0 → 0 ≤ r → r.toNat < fuel → Int.gcd r0 r = 1 →
      (egcdLoop fuel r0 r s0 s).isSome = true := by
  intro fuel
  induction fuel with
  | zero => intro r0 r s0 s _ _ h _; omega
  | succ fuel ih =>
    intro r0 r s0 s h0 h1 hfuel hgcd
    unfold egcdLoop
    by_cases hr : r = 0
    · rw [if_pos hr]
      subst hr
      rw [Int.gcd_zero_right] at hgcd
      have : r0 = 1 := by omega
      rw [if_pos this]
      rfl
    · rw [if_neg hr]
      have hpos : 0 < r := lt_of_le_of_ne h1 (Ne.symm hr)
      have hm0 : 0 ≤ r0 % r := Int.emod_nonneg r0 hr
      have hmlt : r0 % r < r := Int.emod_lt_of_pos r0 hpos
      refine ih r (r0 % r) s (s0 - r0 / r * s) h1 hm0 (by omega) ?_
      have e0 : r0 = ((r0.toNat : Nat) : Int) := by omega
      have e1 : r = ((r.toNat : Nat) : Int) := by omega
      have e2 : (r0 % r : Int) = (((r0.toNat % r.toNat : Nat) : Nat) : Int) := by
        rw [e0, e1]
        push_cast
        rfl
      rw [e2, e1]
      rw [e0, e1] at hgcd
      unfold Int.gcd at hgcd ⊢
      simp only [Int.natAbs_ofNat, Int.toNat_natCast] at hgcd ⊢
      rw [Nat.gcd_comm, ← Nat.gcd_rec, Nat.gcd_comm]
      exact hgcd

instance : NeZero PRIME := ⟨by unfold PRIME; omega⟩

/-- A returned `modInverse` value is a genuine inverse mod `PRIME`. -/
theorem modInverse_spec {a b : Int} (h : modInverse a = some b) :
    (a : ZMod PRIME) * (b : ZMod PRIME) = 1 ∧ 0 ≤ b ∧ b < (PRIME : Int) := by
  unfold modInverse at h
  obtain ⟨b0, hb0, hb⟩ := Option.map_eq_some'.mp h
  have h1 : ((a : Int) : ZMod PRIME) = ((1 : Int) : ZMod PRIME) * ((a : Int) : ZMod PRIME) := by
    push_cast
    ring
  have h2 : (((PRIME : Nat) : Int) : ZMod PRIME) =
      ((0 : Int) : ZMod PRIME) * ((a : Int) : ZMod PRIME) := by
    push_cast
    rw [ZMod.natCast_self]
    ring
  have hc := egcdLoop_correct ((a : Int) : ZMod PRIME) (PRIME + 1) a (PRIME : Int) 1 0 b0 h1 h2 hb0
  subst hb
  refine ⟨?_, jsmod_nonneg b0, jsmod_lt b0⟩
  rw [cast_jsmod, mul_comm]
  exact hc.symm

/-- `modInverse` succeeds on non-negative inputs coprime to `PRIME`. -/
theorem modInverse_isSome {a : Int} (h0 : 0 ≤ a) (hgcd : Int.gcd a (PRIME : Int) = 1) :
    (modInverse a).isSome = true := by
  unfold modInverse
  rw [Option.isSome_map']
  refine egcdLoop_isSome (PRIME + 1) a (PRIME : Int) 1 0 h0 (Int.natCast_nonneg PRIME) ?_ hgcd
  rw [Int.toNat_natCast]
  omega

/-- Units of `ZMod PRIME` among casts of non-negative integers are exactly
those coprime to `PRIME`. -/
theorem gcd_one_of_isUnit {a : Int} (h0 : 0 ≤ a) (hu : IsUnit ((a : Int) : ZMod PRIME)) :
    Int.gcd a (PRIME : Int) = 1 := by
  have he : ((a : Int) : ZMod PRIME) = ((a.toNat : Nat) : ZMod PRIME) := by
    rw [← Int.toNat_of_nonneg h0]
    exact Int.cast_natCast a.toNat
  rw [he] at hu
  have hc := (ZMod.isUnit_iff_coprime a.toNat PRIME).mp hu
  unfold Nat.Coprime at hc
  rw [Int.gcd_def]
  have h1 : a.natAbs = a.toNat := by omega
  have h2 : ((PRIME : Nat) : Int).natAbs = PRIME := Int.natAbs_ofNat PRIME
  rw [h1, h2]
  exact hc

/-- `PRIME` has no divisor in `[2, 255)`, checked by computation. -/
theorem coprime_small_all :
    ((List.range 255).all (fun k => k == 0 || Nat.gcd k PRIME == 1)) = true := by decide

theorem coprime_small : ∀ k, k < 255 → k ≠ 0 → Nat.gcd k PRIME = 1 := by
  intro k hk h0
  have h := List.all_eq_true.mp coprime_small_all k (List.mem_range.mpr hk)
  simp [h0] at h
  exact h

/-- Casts of small non-zero integers are units of `ZMod PRIME`. -/
theorem isUnit_cast_of_small {d : Int} (hd : d ≠ 0) (hsmall : d.natAbs ≤ 254) :
    IsUnit ((d : Int) : ZMod PRIME) := by
  have hk : Nat.gcd d.natAbs PRIME = 1 :=
    coprime_small d.natAbs (by omega) (by simpa using hd)
  have hu : IsUnit ((d.natAbs : Nat) : ZMod PRIME) :=
    (ZMod.isUnit_iff_coprime d.natAbs PRIME).mpr hk
  rcases Int.natAbs_eq d with he | he
  · rw [he, Int.cast_natCast]
    exact hu
  · rw [he, Int.cast_neg, Int.cast_natCast]
    exact hu.neg

/-- The value of a `modInverse` call, defaulting to 0 (used to name the
inverse inside sums; meaningful whenever the call succeeds). -/
def uVal (shares : List (Int × Int)) (i : Nat) : Int := (modInverse (lagDen shares i)).getD 0

theorem list_range_map_sum {M : Type} [AddCommMonoid M] (f : Nat → M) (m : Nat) :
    ((List.range m).map f).sum = ∑ i in Finset.range m, f i := by
  induction m with
  | zero => simp
  | succ m ih =>
    rw [List.range_succ, List.map_append, List.sum_append, Finset.sum_range_succ, ih]
    simp

/-- Casting one of the skip-`i` product loops of `lagrangeInterpolate` into
`ZMod PRIME` yields the product over `(range m).erase i`. -/
theorem cast_lagfold (g : Nat → Int) (i : Nat) :
    ∀ (m : Nat) (init : Int),
      (((List.range m).foldl (fun acc j => if i = j then acc else jsmod (acc * g j)) init : Int) :
          ZMod PRIME) =
        (init : ZMod PRIME) * ∏ j in (Finset.range m).erase i, ((g j : Int) : ZMod PRIME) := by
  intro m
  induction m with
  | zero => intro init; simp
  | succ m ih =>
    intro init
    rw [List.range_succ, List.foldl_append]
    simp only [List.foldl_cons, List.foldl_nil]
    by_cases him : i = m
    · subst him
      rw [if_pos rfl, ih init, Finset.range_succ, Finset.erase_insert (by simp),
        Finset.erase_eq_of_not_mem (by simp)]
    · rw [if_neg him, cast_jsmod]
      push_cast
      rw [ih init, Finset.range_succ, Finset.erase_insert_of_ne (Ne.symm him),
        Finset.prod_insert (by simp)]
      ring

/-- The skip-`i` loops stay non-negative. -/
theorem lagfold_nonneg (g : Nat → Int) (i : Nat) (L : List Nat) :
    ∀ init : Int, 0 ≤ init →
      0 ≤ L.foldl (fun acc j => if i = j then acc else jsmod (acc * g j)) init := by
  induction L with
  | nil => intro init h; exact h
  | cons j t ih =>
    intro init h
    simp only [List.foldl_cons]
    by_cases hij : i = j
    · rw [if_pos hij]; exact ih init h
    · rw [if_neg hij]; exact ih _ (jsmod_nonneg _)

/-- Casting `evaluatePolynomial`'s fold into `ZMod PRIME`. -/
theorem cast_evalfold (x : Int) :
    ∀ (cs : List Int) (r xp : Int),
      (((cs.foldl (fun (acc : Int × Int) coeff =>
            (jsmod (acc.1 + jsmod (coeff * acc.2)), jsmod (acc.2 * x))) (r, xp)).1 : Int) :
          ZMod PRIME) =
        (r : ZMod PRIME) + ∑ t in Finset.range cs.length,
          ((cs.getD t 0 : Int) : ZMod PRIME) * (xp : ZMod PRIME) * ((x : Int) : ZMod PRIME) ^ t := by
  intro cs
  induction cs with
  | nil => intro r xp; simp
  | cons c cs ih =>
    intro r xp
    simp only [List.foldl_cons]
    rw [ih (jsmod (r + jsmod (c * xp))) (jsmod (xp * x))]
    rw [cast_jsmod]
    push_cast
    rw [cast_jsmod]
    push_cast
    rw [List.length_cons, Finset.sum_range_succ']
    simp only [List.getD_cons_succ, List.getD_cons_zero]
    rw [cast_jsmod]
    push_cast
    have hsum : (∑ t in Finset.range cs.length,
        ((cs.getD t 0 : Int) : ZMod PRIME) *
          (((xp : Int) : ZMod PRIME) * ((x : Int) : ZMod PRIME)) *
          ((x : Int) : ZMod PRIME) ^ t) =
        ∑ t in Finset.range cs.length,
          ((cs.getD t 0 : Int) : ZMod PRIME) * ((xp : Int) : ZMod PRIME) *
            ((x : Int) : ZMod PRIME) ^ (t + 1) :=
      Finset.sum_congr rfl (fun t _ => by ring)
    rw [hsum]
    ring

/-- `evaluatePolynomial` in `ZMod PRIME` is the exact polynomial sum. -/
theorem cast_evaluatePolynomial (cs : List Int) (x : Int) :
    ((evaluatePolynomial cs x : Int) : ZMod PRIME) =
      ∑ t in Finset.range cs.length,
        ((cs.getD t 0 : Int) : ZMod PRIME) * ((x : Int) : ZMod PRIME) ^ t := by
  unfold evaluatePolynomial
  rw [cast_evalfold x cs 0 1]
  push_cast
  simp

/-! ## C1 — the interpolation identity behind `combineShares`

`ZMod PRIME` is never assumed to be a field (no primality proof enters): the
monomial identity is established over `ℚ` via `Mathlib`, denominators are
cleared there, the cleared identity transfers to `ℤ` by injectivity of the
cast and then into `ZMod PRIME` along the ring homomorphism, and the
inverses produced by the code (`modInverse`) stand in for field inverses. -/

theorem isUnit_finset_prod {M : Type} [CommMonoid M] (s : Finset Nat) (f : Nat → M)
    (h : ∀ i ∈ s, IsUnit (f i)) : IsUnit (∏ i in s, f i) :=
  Finset.prod_induction f IsUnit (fun _ _ => IsUnit.mul) isUnit_one h

/-- Lagrange interpolation of the monomial `Xᵗ`, `t < T`, evaluated at `0`,
over `ℚ`. -/
theorem lagrange_eval_zero_q (T : Nat) (v : Nat → ℚ)
    (hinj : Set.InjOn v (Finset.range T)) (t : Nat) (ht : t < T) :
    (∑ i in Finset.range T, v i ^ t *
        ∏ j in (Finset.range T).erase i, ((v i - v j)⁻¹ * (0 - v j))) =
      if t = 0 then 1 else 0 := by
  have hdeg : (Polynomial.X ^ t : Polynomial ℚ).degree < (Finset.range T).card := by
    rw [Polynomial.degree_X_pow, Finset.card_range]
    exact_mod_cast ht
  have key := Lagrange.eq_interpolate (s := Finset.range T) (v := v)
    (f := Polynomial.X ^ t) hinj hdeg
  have h0 := congrArg (Polynomial.eval (0 : ℚ)) key
  rw [Lagrange.interpolate_apply] at h0
  simp only [Polynomial.eval_pow, Polynomial.eval_X, Polynomial.eval_finset_sum,
    Polynomial.eval_mul, Polynomial.eval_C, Lagrange.basis, Polynomial.eval_prod,
    Lagrange.basisDivisor, Polynomial.eval_sub] at h0
  rw [← h0, zero_pow_eq]

/-- The monomial identity with all denominators cleared, still over `ℚ`. -/
theorem lagrange_cleared_q (T : Nat) (v : Nat → ℚ)
    (hinj : Set.InjOn v (Finset.range T)) (t : Nat) (ht : t < T) :
    (∑ i in Finset.range T, v i ^ t *
        (∏ j in (Finset.range T).erase i, (0 - v j)) *
        ∏ k in (Finset.range T).erase i,
          ∏ j in (Finset.range T).erase k, (v k - v j)) =
      (if t = 0 then (1 : ℚ) else 0) *
        ∏ k in Finset.range T, ∏ j in (Finset.range T).erase k, (v k - v j) := by
  have hD : ∀ k ∈ Finset.range T, (∏ j in (Finset.range T).erase k, (v k - v j)) ≠ 0 := by
    intro k hk
    refine Finset.prod_ne_zero_iff.mpr ?_
    intro j hj he
    have hjk := (Finset.mem_erase.mp hj).1
    have hjs := (Finset.mem_erase.mp hj).2
    exact hjk (hinj (Finset.mem_coe.mpr hjs) (Finset.mem_coe.mpr hk) (sub_eq_zero.mp he).symm)
  have key := congrArg
    (fun z : ℚ => z * ∏ k in Finset.range T, ∏ j in (Finset.range T).erase k, (v k - v j))
    (lagrange_eval_zero_q T v hinj t ht)
  simp only at key
  rw [Finset.sum_mul] at key
  rw [← key]
  refine Finset.sum_congr rfl ?_
  intro i hi
  rw [Finset.prod_mul_distrib, Finset.prod_inv_distrib,
    ← Finset.mul_prod_erase (Finset.range T)
      (fun k => ∏ j in (Finset.range T).erase k, (v k - v j)) hi]
  have hP : (∏ j in (Finset.range T).erase i, (v i - v j))⁻¹ *
      ∏ j in (Finset.range T).erase i, (v i - v j) = 1 := inv_mul_cancel₀ (hD i hi)
  linear_combination (-(v i ^ t * (∏ j in (Finset.range T).erase i, (0 - v j)) *
    ∏ k in (Finset.range T).erase i, ∏ j in (Finset.range T).erase k, (v k - v j))) * hP

/-- The cleared identity over `ℤ`, by injectivity of `ℤ → ℚ`. -/
theorem lagrange_cleared_int (T : Nat) (w : Nat → Int)
    (hinj : ∀ i, i < T → ∀ j, j < T → w i = w j → i = j) (t : Nat) (ht : t < T) :
    (∑ i in Finset.range T, w i ^ t *
        (∏ j in (Finset.range T).erase i, (0 - w j)) *
        ∏ k in (Finset.range T).erase i,
          ∏ j in (Finset.range T).erase k, (w k - w j)) =
      (if t = 0 then (1 : Int) else 0) *
        ∏ k in Finset.range T, ∏ j in (Finset.range T).erase k, (w k - w j) := by
  have hinjq : Set.InjOn (fun i => ((w i : Int) : ℚ)) (Finset.range T) := by
    intro a ha b hb hab
    have hab2 : ((w a : Int) : ℚ) = ((w b : Int) : ℚ) := hab
    exact hinj a (Finset.mem_range.mp (Finset.mem_coe.mp ha))
      b (Finset.mem_range.mp (Finset.mem_coe.mp hb)) (by exact_mod_cast hab2)
  have hq := lagrange_cleared_q T (fun i => ((w i : Int) : ℚ)) hinjq t ht
  by_cases ht0 : t = 0
  · simp only [if_pos ht0] at hq ⊢
    exact_mod_cast hq
  · simp only [if_neg ht0] at hq ⊢
    exact_mod_cast hq

/-- With two-sided inverses `uᵢ` of the denominator products supplied, the
cleared identity becomes the δ-identity in `ZMod PRIME`. -/
theorem lagrange_delta_zmod (T : Nat) (w : Nat → Int) (u : Nat → ZMod PRIME)
    (hinj : ∀ i, i < T → ∀ j, j < T → w i = w j → i = j)
    (hu : ∀ i ∈ Finset.range T,
      u i * ∏ j in (Finset.range T).erase i,
        (((w i : Int) : ZMod PRIME) - ((w j : Int) : ZMod PRIME)) = 1)
    (t : Nat) (ht : t < T) :
    (∑ i in Finset.range T, ((w i : Int) : ZMod PRIME) ^ t *
        (∏ j in (Finset.range T).erase i, -((w j : Int) : ZMod PRIME)) * u i) =
      if t = 0 then 1 else 0 := by
  have hcast := congrArg (fun z : Int => (z : ZMod PRIME)) (lagrange_cleared_int T w hinj t ht)
  simp only at hcast
  push_cast [zero_sub] at hcast
  have hmul := congrArg
    (fun z : ZMod PRIME => z * ∏ k in Finset.range T, u k) hcast
  simp only at hmul
  rw [Finset.sum_mul] at hmul
  have hone : (∏ k in Finset.range T,
      (∏ j in (Finset.range T).erase k,
        (((w k : Int) : ZMod PRIME) - ((w j : Int) : ZMod PRIME))) * u k) = 1 :=
    Finset.prod_eq_one (fun k hk => by rw [mul_comm]; exact hu k hk)
  calc
    (∑ i in Finset.range T, ((w i : Int) : ZMod PRIME) ^ t *
        (∏ j in (Finset.range T).erase i, -((w j : Int) : ZMod PRIME)) * u i)
      = ∑ i in Finset.range T,
          (((w i : Int) : ZMod PRIME) ^ t *
            (∏ j in (Finset.range T).erase i, -((w j : Int) : ZMod PRIME)) *
            ∏ k in (Finset.range T).erase i,
              ∏ j in (Finset.range T).erase k,
                (((w k : Int) : ZMod PRIME) - ((w j : Int) : ZMod PRIME))) *
          ∏ k in Finset.range T, u k := by
        refine Finset.sum_congr rfl ?_
        intro i hi
        rw [← Finset.mul_prod_erase (Finset.range T) u hi]
        have h2 : (∏ k in (Finset.range T).erase i,
            ∏ j in (Finset.range T).erase k,
              (((w k : Int) : ZMod PRIME) - ((w j : Int) : ZMod PRIME))) *
            ∏ k in (Finset.range T).erase i, u k = 1 := by
          rw [← Finset.prod_mul_distrib]
          exact Finset.prod_eq_one
            (fun k hk => by rw [mul_comm]; exact hu k (Finset.mem_of_mem_erase hk))
        linear_combination (-(((w i : Int) : ZMod PRIME) ^ t *
          (∏ j in (Finset.range T).erase i, -((w j : Int) : ZMod PRIME)) * u i)) * h2
    _ = if t = 0 then 1 else 0 := by
        rw [hmul, mul_assoc, ← Finset.prod_mul_distrib, hone, mul_one]

/-- Summing the δ-identity against the coefficients: the code-shaped Lagrange
sum of the polynomial values recovers the constant coefficient. -/
theorem lagrange_recover (T : Nat) (w : Nat → Int) (u : Nat → ZMod PRIME)
    (hinj : ∀ i, i < T → ∀ j, j < T → w i = w j → i = j)
    (hu : ∀ i ∈ Finset.range T,
      u i * ∏ j in (Finset.range T).erase i,
        (((w i : Int) : ZMod PRIME) - ((w j : Int) : ZMod PRIME)) = 1)
    (cs : List Int) (hne : cs ≠ []) (hlen : cs.length ≤ T) :
    (∑ i in Finset.range T, ((evaluatePolynomial cs (w i) : Int) : ZMod PRIME) *
        (∏ j in (Finset.range T).erase i, -((w j : Int) : ZMod PRIME)) * u i) =
      ((cs.getD 0 0 : Int) : ZMod PRIME) := by
  have step1 : ∀ i ∈ Finset.range T,
      ((evaluatePolynomial cs (w i) : Int) : ZMod PRIME) *
        (∏ j in (Finset.range T).erase i, -((w j : Int) : ZMod PRIME)) * u i =
      ∑ t in Finset.range cs.length,
        ((cs.getD t 0 : Int) : ZMod PRIME) *
          (((w i : Int) : ZMod PRIME) ^ t *
            (∏ j in (Finset.range T).erase i, -((w j : Int) : ZMod PRIME)) * u i) := by
    intro i _
    rw [cast_evaluatePolynomial, Finset.sum_mul, Finset.sum_mul]
    exact Finset.sum_congr rfl (fun t _ => by ring)
  rw [Finset.sum_congr rfl step1, Finset.sum_comm]
  have step2 : ∀ t ∈ Finset.range cs.length,
      (∑ i in Finset.range T, ((cs.getD t 0 : Int) : ZMod PRIME) *
        (((w i : Int) : ZMod PRIME) ^ t *
          (∏ j in (Finset.range T).erase i, -((w j : Int) : ZMod PRIME)) * u i)) =
      ((cs.getD t 0 : Int) : ZMod PRIME) * (if t = 0 then 1 else 0) := by
    intro t htm
    rw [← Finset.mul_sum, lagrange_delta_zmod T w u hinj hu t
      (lt_of_lt_of_le (Finset.mem_range.mp htm) hlen)]
  rw [Finset.sum_congr rfl step2]
  simp only [mul_ite, mul_one, mul_zero]
  rw [Finset.sum_ite_eq' (Finset.range cs.length) 0
    (fun t => ((cs.getD t 0 : Int) : ZMod PRIME))]
  rw [if_pos (Finset.mem_range.mpr (List.length_pos.mpr hne))]

/-- The numerator loop of `lagrangeInterpolate`, cast into `ZMod PRIME`. -/
theorem cast_lagNum (shares : List (Int × Int)) (i : Nat) :
    ((lagNum shares i : Int) : ZMod PRIME) =
      ∏ j in (Finset.range shares.length).erase i,
        -((((shares.getD j (0, 0)).1 : Int)) : ZMod PRIME) := by
  unfold lagNum
  rw [cast_lagfold (fun j => jsmod (-(shares.getD j (0, 0)).1)) i shares.length 1]
  rw [Int.cast_one, one_mul]
  exact Finset.prod_congr rfl (fun j _ => by rw [cast_jsmod, Int.cast_neg])

/-- The denominator loop of `lagrangeInterpolate`, cast into `ZMod PRIME`. -/
theorem cast_lagDen (shares : List (Int × Int)) (i : Nat) :
    ((lagDen shares i : Int) : ZMod PRIME) =
      ∏ j in (Finset.range shares.length).erase i,
        ((((shares.getD i (0, 0)).1 : Int) : ZMod PRIME) -
          (((shares.getD j (0, 0)).1 : Int) : ZMod PRIME)) := by
  unfold lagDen
  rw [cast_lagfold (fun j => jsmod ((shares.getD i (0, 0)).1 - (shares.getD j (0, 0)).1)) i
    shares.length 1]
  rw [Int.cast_one, one_mul]
  exact Finset.prod_congr rfl (fun j _ => by rw [cast_jsmod, Int.cast_sub])

theorem lagDen_nonneg (shares : List (Int × Int)) (i : Nat) : 0 ≤ lagDen shares i := by
  unfold lagDen
  exact lagfold_nonneg (fun j => jsmod ((shares.getD i (0, 0)).1 - (shares.getD j (0, 0)).1)) i
    (List.range shares.length) 1 zero_le_one

/-- When the share abscissas are distinct values in `[1, 255]`, every
denominator is invertible, so every `modInverse` call in the interpolation
loop succeeds. -/
theorem modInverse_lagDen (shares : List (Int × Int))
    (hx : ∀ j, j < shares.length →
      1 ≤ (shares.getD j (0, 0)).1 ∧ (shares.getD j (0, 0)).1 ≤ 255)
    (hdist : ∀ i, i < shares.length → ∀ j, j < shares.length →
      (shares.getD i (0, 0)).1 = (shares.getD j (0, 0)).1 → i = j)
    (i : Nat) (hi : i < shares.length) :
    (modInverse (lagDen shares i)).isSome = true := by
  have hunit : IsUnit ((lagDen shares i : Int) : ZMod PRIME) := by
    rw [cast_lagDen]
    refine isUnit_finset_prod _ _ ?_
    intro j hj
    have hji := (Finset.mem_erase.mp hj).1
    have hjm := Finset.mem_range.mp (Finset.mem_erase.mp hj).2
    have h1 := hx i hi
    have h2 := hx j hjm
    have hne : (shares.getD i (0, 0)).1 - (shares.getD j (0, 0)).1 ≠ 0 := by
      intro h0
      exact hji (hdist j hjm i hi (by omega))
    rw [← Int.cast_sub]
    exact isUnit_cast_of_small hne (by omega)
  exact modInverse_isSome (lagDen_nonneg shares i)
    (gcd_one_of_isUnit (lagDen_nonneg shares i) hunit)

/-- The stored inverse really inverts the denominator product in
`ZMod PRIME`. -/
theorem uVal_spec (shares : List (Int × Int)) (i : Nat)
    (h : (modInverse (lagDen shares i)).isSome = true) :
    ((uVal shares i : Int) : ZMod PRIME) *
      ∏ j in (Finset.range shares.length).erase i,
        ((((shares.getD i (0, 0)).1 : Int) : ZMod PRIME) -
          (((shares.getD j (0, 0)).1 : Int) : ZMod PRIME)) = 1 := by
  obtain ⟨b, hb⟩ := Option.isSome_iff_exists.mp h
  have hs := modInverse_spec hb
  have hbv : uVal shares i = b := by unfold uVal; rw [hb]; rfl
  rw [hbv, ← cast_lagDen, mul_comm]
  exact hs.1

/-- The accumulation loop of `lagrangeInterpolate`: with every `modInverse`
succeeding it returns a reduced representative of the Lagrange sum. -/
theorem lag_foldM (shares : List (Int × Int)) :
    ∀ (m : Nat) (init : Int),
      (∀ i, i < m → (modInverse (lagDen shares i)).isSome = true) →
      0 ≤ init → init < (PRIME : Int) →
      ∃ S : Int,
        (List.range m).foldlM
          (fun secret i =>
            (modInverse (lagDen shares i)).map (fun inv =>
              jsmod (secret +
                jsmod ((shares.getD i (0, 0)).2 * jsmod (lagNum shares i * inv)))))
          init = some S ∧
        0 ≤ S ∧ S < (PRIME : Int) ∧
        ((S : Int) : ZMod PRIME) =
          (init : ZMod PRIME) + ∑ i in Finset.range m,
            (((shares.getD i (0, 0)).2 : Int) : ZMod PRIME) *
              ((lagNum shares i : Int) : ZMod PRIME) *
              ((uVal shares i : Int) : ZMod PRIME) := by
  intro m
  induction m with
  | zero =>
    intro init h h0 h1
    exact ⟨init, by simp, h0, h1, by simp⟩
  | succ m ih =>
    intro init h h0 h1
    obtain ⟨S, hS, hS0, hS1, hcast⟩ := ih init (fun i hi => h i (Nat.lt_succ_of_lt hi)) h0 h1
    obtain ⟨u, hu⟩ := Option.isSome_iff_exists.mp (h m (Nat.lt_succ_self m))
    refine ⟨jsmod (S + jsmod ((shares.getD m (0, 0)).2 * jsmod (lagNum shares m * u))), ?_,
      jsmod_nonneg _, jsmod_lt _, ?_⟩
    · rw [List.range_succ, List.foldlM_append, hS]
      simp only [List.foldlM, hu, Option.map_some', bind, someBind, pure]
    · have huv : uVal shares m = u := by unfold uVal; rw [hu]; rfl
      rw [cast_jsmod]
      push_cast
      rw [cast_jsmod]
      push_cast
      rw [cast_jsmod]
      push_cast
      rw [hcast, Finset.sum_range_succ, huv]
      ring

/-- `lagrangeInterpolate` under solvable denominators: value, range, and its
meaning in `ZMod PRIME`. -/
theorem lagrangeInterpolate_eq (shares : List (Int × Int))
    (h : ∀ i, i < shares.length → (modInverse (lagDen shares i)).isSome = true) :
    ∃ S : Int, lagrangeInterpolate shares = some S ∧ 0 ≤ S ∧ S < (PRIME : Int) ∧
      ((S : Int) : ZMod PRIME) =
        ∑ i in Finset.range shares.length,
          (((shares.getD i (0, 0)).2 : Int) : ZMod PRIME) *
            ((lagNum shares i : Int) : ZMod PRIME) *
            ((uVal shares i : Int) : ZMod PRIME) := by
  obtain ⟨S, hS, h0, h1, hc⟩ := lag_foldM shares shares.length 0 h le_rfl
    (by exact_mod_cast Nat.pos_of_ne_zero (NeZero.ne PRIME))
  exact ⟨S, hS, h0, h1, by rw [hc]; push_cast; ring⟩

/-- On shares that are genuine evaluations of a polynomial of degree below
the share count, at distinct abscissas in `[1, 255]`, `lagrangeInterpolate`
returns the reduced constant coefficient. -/
theorem lagrangeInterpolate_recovers (shares : List (Int × Int)) (cs : List Int)
    (hx : ∀ j, j < shares.length →
      1 ≤ (shares.getD j (0, 0)).1 ∧ (shares.getD j (0, 0)).1 ≤ 255)
    (hdist : ∀ i, i < shares.length → ∀ j, j < shares.length →
      (shares.getD i (0, 0)).1 = (shares.getD j (0, 0)).1 → i = j)
    (hy : ∀ i, i < shares.length →
      (shares.getD i (0, 0)).2 = evaluatePolynomial cs (shares.getD i (0, 0)).1)
    (hne : cs ≠ []) (hlen : cs.length ≤ shares.length) :
    ∃ S : Int, lagrangeInterpolate shares = some S ∧ 0 ≤ S ∧ S < (PRIME : Int) ∧
      ((S : Int) : ZMod PRIME) = ((cs.getD 0 0 : Int) : ZMod PRIME) := by
  have hsome : ∀ i, i < shares.length → (modInverse (lagDen shares i)).isSome = true :=
    fun i hi => modInverse_lagDen shares hx hdist i hi
  obtain ⟨S, hS, h0, h1, hc⟩ := lagrangeInterpolate_eq shares hsome
  refine ⟨S, hS, h0, h1, ?_⟩
  rw [hc]
  have hu : ∀ i ∈ Finset.range shares.length,
      ((uVal shares i : Int) : ZMod PRIME) *
        ∏ j in (Finset.range shares.length).erase i,
          ((((shares.getD i (0, 0)).1 : Int) : ZMod PRIME) -
            (((shares.getD j (0, 0)).1 : Int) : ZMod PRIME)) = 1 :=
    fun i hi => uVal_spec shares i (hsome i (Finset.mem_range.mp hi))
  have hrec := lagrange_recover shares.length (fun i => (shares.getD i (0, 0)).1)
    (fun i => ((uVal shares i : Int) : ZMod PRIME)) hdist hu cs hne hlen
  rw [← hrec]
  refine Finset.sum_congr rfl ?_
  intro i hi
  rw [hy i (Finset.mem_range.mp hi), cast_lagNum]

theorem getD_map {A B : Type} (f : A → B) (l : List A) {i : Nat} (h : i < l.length)
    (d : B) (e : A) : (l.map f).getD i d = f (l.getD i e) := by
  rw [getD_eq_getElem_of_lt (by simpa using h), getD_eq_getElem_of_lt h]
  simp

/-- C1 (amended): the split/combine round-trip.  For a canonical key — the
64-char lowercase hex of a value `n < p` — splitting with threshold `T`,
`2 ≤ T ≤ N ≤ 255` and `T - 1` drawn coefficients, then combining any
`T`-element subset of the shares (given by a duplicate-free list of `T`
indices below `N`) returns exactly the original key string. -/
theorem split_combine_roundtrip (n T N : Nat) (coeffs : List Int) (idx : List Nat)
    (hn : n < PRIME) (hT : 2 ≤ T) (hTN : T ≤ N) (hN : N ≤ 255)
    (hc : coeffs.length + 1 = T)
    (hlen : idx.length = T) (hnd : idx.Nodup) (hmem : ∀ i ∈ idx, i < N) :
    ∃ spl : SplitResult, splitMasterKey (natToHex64 n) T N coeffs = some spl ∧
      combineShares (idx.map (fun i => spl.shares.getD i { x := 0, y := 0 })) =
        some (natToHex64 n) := by
  have hp256 : n < 2 ^ 256 := lt_trans hn (by unfold PRIME; norm_num)
  have hkey := hexToNat_natToHex64 hp256
  have hsplit := splitMasterKey_eq (natToHex64 n) T N coeffs n hT hTN hN hkey
  refine ⟨_, hsplit, ?_⟩
  dsimp only
  rw [List.map_congr_left (fun i hi =>
    getD_map_range (fun k =>
      ({ x := ((k + 1 : Nat) : Int),
         y := evaluatePolynomial ((n : Int) :: coeffs) ((k + 1 : Nat) : Int) } : ShareData))
      (hmem i hi) { x := 0, y := 0 })]
  unfold combineShares
  rw [if_neg (by rw [List.length_map, hlen]; omega)]
  rw [List.map_map, List.map_map]
  have hxmap : (idx.map (ShareData.x ∘ fun i =>
      ({ x := ((i + 1 : Nat) : Int),
         y := evaluatePolynomial ((n : Int) :: coeffs) ((i + 1 : Nat) : Int) } : ShareData))) =
      idx.map (fun i => ((i + 1 : Nat) : Int)) := List.map_congr_left (fun i _ => rfl)
  rw [hxmap]
  rw [if_pos (List.Nodup.map (fun a b hab => by omega) hnd)]
  have hpair : (idx.map ((fun s => (s.x, s.y)) ∘ fun i =>
      ({ x := ((i + 1 : Nat) : Int),
         y := evaluatePolynomial ((n : Int) :: coeffs) ((i + 1 : Nat) : Int) } : ShareData))) =
      idx.map (fun i => (((i + 1 : Nat) : Int),
        evaluatePolynomial ((n : Int) :: coeffs) ((i + 1 : Nat) : Int))) :=
    List.map_congr_left (fun i _ => rfl)
  rw [hpair]
  have hPlen : (idx.map (fun i => (((i + 1 : Nat) : Int),
      evaluatePolynomial ((n : Int) :: coeffs) ((i + 1 : Nat) : Int)))).length = idx.length :=
    List.length_map idx _
  have hPg : ∀ j, j < idx.length →
      (idx.map (fun i => (((i + 1 : Nat) : Int),
        evaluatePolynomial ((n : Int) :: coeffs) ((i + 1 : Nat) : Int)))).getD j (0, 0) =
      (((idx.getD j 0 + 1 : Nat) : Int),
        evaluatePolynomial ((n : Int) :: coeffs) ((idx.getD j 0 + 1 : Nat) : Int)) := by
    intro j hj
    exact getD_map _ idx hj (0, 0) 0
  have hx : ∀ j, j < (idx.map (fun i => (((i + 1 : Nat) : Int),
      evaluatePolynomial ((n : Int) :: coeffs) ((i + 1 : Nat) : Int)))).length →
      1 ≤ ((idx.map (fun i => (((i + 1 : Nat) : Int),
        evaluatePolynomial ((n : Int) :: coeffs) ((i + 1 : Nat) : Int)))).getD j (0, 0)).1 ∧
      ((idx.map (fun i => (((i + 1 : Nat) : Int),
        evaluatePolynomial ((n : Int) :: coeffs) ((i + 1 : Nat) : Int)))).getD j (0, 0)).1 ≤
        255 := by
    intro j hj
    rw [hPlen] at hj
    rw [hPg j hj]
    have hm := hmem (idx.getD j 0) (listGetD_mem hj 0)
    constructor
    · simp only []
      omega
    · simp only []
      omega
  have hdist : ∀ a, a < (idx.map (fun i => (((i + 1 : Nat) : Int),
      evaluatePolynomial ((n : Int) :: coeffs) ((i + 1 : Nat) : Int)))).length →
      ∀ b, b < (idx.map (fun i => (((i + 1 : Nat) : Int),
        evaluatePolynomial ((n : Int) :: coeffs) ((i + 1 : Nat) : Int)))).length →
      ((idx.map (fun i => (((i + 1 : Nat) : Int),
        evaluatePolynomial ((n : Int) :: coeffs) ((i + 1 : Nat) : Int)))).getD a (0, 0)).1 =
      ((idx.map (fun i => (((i + 1 : Nat) : Int),
        evaluatePolynomial ((n : Int) :: coeffs) ((i + 1 : Nat) : Int)))).getD b (0, 0)).1 →
      a = b := by
    intro a ha b hb heq
    rw [hPlen] at ha hb
    rw [hPg a ha, hPg b hb] at heq
    by_contra hab
    exact nodup_getD_ne hnd 0 a b ha hb hab (by simp only [] at heq; omega)
  have hyv : ∀ i, i < (idx.map (fun i => (((i + 1 : Nat) : Int),
      evaluatePolynomial ((n : Int) :: coeffs) ((i + 1 : Nat) : Int)))).length →
      ((idx.map (fun i => (((i + 1 : Nat) : Int),
        evaluatePolynomial ((n : Int) :: coeffs) ((i + 1 : Nat) : Int)))).getD i (0, 0)).2 =
      evaluatePolynomial ((n : Int) :: coeffs)
        ((idx.map (fun i => (((i + 1 : Nat) : Int),
          evaluatePolynomial ((n : Int) :: coeffs) ((i + 1 : Nat) : Int)))).getD i (0, 0)).1 := by
    intro i hi
    rw [hPlen] at hi
    rw [hPg i hi]
  have hlcs : ((n : Int) :: coeffs).length ≤ (idx.map (fun i => (((i + 1 : Nat) : Int),
      evaluatePolynomial ((n : Int) :: coeffs) ((i + 1 : Nat) : Int)))).length := by
    rw [hPlen]
    simp only [List.length_cons]
    omega
  obtain ⟨S, hS, h0, h1, hcast⟩ := lagrangeInterpolate_recovers
    (idx.map (fun i => (((i + 1 : Nat) : Int),
      evaluatePolynomial ((n : Int) :: coeffs) ((i + 1 : Nat) : Int))))
    ((n : Int) :: coeffs) hx hdist hyv (List.cons_ne_nil _ _) hlcs
  rw [hS, Option.map_some']
  have hmod : S % (PRIME : Int) = ((n : Nat) : Int) % (PRIME : Int) := by
    refine (ZMod.intCast_eq_intCast_iff' S ((n : Nat) : Int) PRIME).mp ?_
    rw [hcast]
    simp
  rw [Int.emod_eq_of_lt h0 h1] at hmod
  rw [Int.emod_eq_of_lt (Int.natCast_nonneg n) (by exact_mod_cast hn)] at hmod
  rw [hmod, Int.toNat_natCast]

/-- C1 witness: a concrete 2-of-3 split of the key `natToHex64 3` whose
shares 0 and 2 recombine to the original key. -/
theorem split_combine_roundtrip_witness :
    3 < PRIME ∧ (2 ≤ 2 ∧ 2 ≤ 3 ∧ 3 ≤ 255) ∧
    ∃ spl : SplitResult, splitMasterKey (natToHex64 3) 2 3 [5] = some spl ∧
      combineShares ([0, 2].map (fun i => spl.shares.getD i { x := 0, y := 0 })) =
        some (natToHex64 3) :=
  ⟨by decide, ⟨by decide, by decide, by decide⟩,
    split_combine_roundtrip 3 2 3 [5] [0, 2] (by decide) (by decide) (by decide)
      (by decide) (by decide) (by decide) (by decide) (by decide)⟩

/-- C1 counterexample: a well-formed 64-char hex master key whose 256-bit
value is `p` itself splits without error, but combining all of its shares
returns the hex of `p mod p = 0` — not the original key string.  The
unamended claim (round-trip for every 64-char hex key) is therefore false:
the key value must be below `p`. -/
theorem split_combine_overflow :
    (splitMasterKey (natToHex64 PRIME) 2 2 [0]).bind
      (fun spl => combineShares spl.shares) ≠ some (natToHex64 PRIME) := by decide
